import Mathlib

/-!
Verification of the information-theory-and-codes repository.

Shallow embedding of the repository's Python sources:
  * `utils.py`   : bit/byte packing, PKCS#7 padding, channel error injection
  * `linear.py`  : systematic linear block code (construction, encode, decode,
                   syndrome table, parameter round-trip)
  * `huffman.py` : Huffman compression codec

Bit strings (Python strings of the characters 0 and 1) are modelled as
`List Bool` (`'1' ↦ true`). Byte buffers are `List Nat`. numpy `uint8`
vectors are `List Nat`: every matrix entry of the repository is a bit, the
dot products are reduced `% 2`, and `uint8` wrap-around (mod 256) cannot
change a value taken `% 2` because `2 ∣ 256`, so plain `Nat` arithmetic
with explicit `% 2` is an exact model of the source's `(...) % 2` on
`uint8` arrays. Python floats are modelled as exact rationals; the
repository only multiplies a length by a percentage and divides by 100,
and every concrete input used below is exactly representable in binary
floating point, so the idealisation does not change any evaluated value.
Python exceptions are modelled with `Except Fault`.
-/

namespace Codes

/-- The kinds of failures the repository can raise.  `ValueError`s that the
spec names InvalidArgument / InvalidPadding / LengthMismatch are kept
apart; `shapeFault` is a numpy dimension-mismatch `ValueError`,
`attributeFault` is an `AttributeError` on `None`, `keyFault` a dict
`KeyError`, `runtimeFault` a `RuntimeError`, `sampleFault` the
`ValueError` raised by `random.sample` on a negative sample size. -/
inductive Fault where
  | invalidArgument
  | invalidPadding
  | lengthMismatch
  | runtimeFault
  | shapeFault
  | attributeFault
  | keyFault
  | sampleFault
deriving DecidableEq, Repr

/-- Value of a bit character: `int(bit)` on a '0'/'1' character. -/
def bitVal (b : Bool) : Nat := if b then 1 else 0

/-- `[int(bit) for bit in s]` on a bit string. -/
def toVec (s : List Bool) : List Nat := s.map bitVal

/-- `''.join(map(str, v))` on a 0/1 vector, read back as a bit string. -/
def ofVec (v : List Nat) : List Bool := v.map (fun x => x == 1)

/-- `format(i, '0{p}b')`: the `p`-bit big-endian binary representation,
as the list of its bit values. -/
def natBits (p i : Nat) : List Nat :=
  (List.range p).map (fun j => i / 2 ^ (p - 1 - j) % 2)

/-- `int(chunk, 2)`: read a big-endian bit-value list as a number. -/
def fromBits (l : List Nat) : Nat := l.foldl (fun a b => 2 * a + b) 0

/-- Elementwise product then sum: `v @ w` on equal-length numpy vectors. -/
def dot (xs ys : List Nat) : Nat := (List.zipWith (fun a b => a * b) xs ys).sum

/-- A column of the `p × p` identity matrix (also used as a length-`m`
unit error vector). -/
def unitVec (m t : Nat) : List Nat := (List.range m).map (fun j => if j = t then 1 else 0)

/-! ## utils.py -/

/-- The slices `padded_bit_str[i:i+8]` taken by `bit_string_to_bytes`. -/
def toChunks (l : List Bool) : List (List Bool) :=
  if h : l = [] then []
  else l.take 8 :: toChunks (l.drop 8)
termination_by l.length
decreasing_by
  simp only [List.length_drop]
  have := List.length_pos.mpr h
  omega

/-- `bit_string_to_bytes`: zero-fill to a byte boundary, then read each
8-bit chunk as a byte value. -/
def bit_string_to_bytes (bit_str : List Bool) : List Nat :=
  if bit_str = [] then []
  else
    let padded := bit_str ++ List.replicate ((8 - bit_str.length % 8) % 8) false
    (toChunks padded).map (fun ch => fromBits (toVec ch))

/-- `bytes_to_bit_string`: `format(byte, '08b')` for each byte, joined. -/
def bytes_to_bit_string (byte_data : List Nat) : List Bool :=
  (byte_data.map (fun b => ofVec (natBits 8 b))).flatten

/-- `pkcs7_pad_bytes`. -/
def pkcs7_pad_bytes (data : List Nat) (block_size_bytes : Nat) : Except Fault (List Nat) :=
  if block_size_bytes < 1 ∨ block_size_bytes > 255 then .error .invalidArgument
  else
    let padding_len := block_size_bytes - data.length % block_size_bytes
    .ok (data ++ List.replicate padding_len padding_len)

/-- `pkcs7_unpad_bytes`.  `data[-1]` is the last byte; the guard on empty
data is the source's "Cannot unpad empty data" `ValueError`. -/
def pkcs7_unpad_bytes (data : List Nat) (block_size_bytes : Nat) : Except Fault (List Nat) :=
  if data = [] then .error .invalidArgument
  else
    let padding_len := data.getLastD 0
    if padding_len = 0 ∨ padding_len > block_size_bytes then .error .invalidPadding
    else if padding_len > data.length then .error .invalidPadding
    else .ok (data.take (data.length - padding_len))

/-- `pkcs7_pad_bit_string`. -/
def pkcs7_pad_bit_string (bit_str : List Bool) (block_size_bits : Nat) :
    Except Fault (List Bool) :=
  if block_size_bits ≤ 0 ∨ block_size_bits % 8 ≠ 0 then .error .invalidArgument
  else
    let current_bytes := bit_string_to_bytes bit_str
    let target_byte_block_size := block_size_bits / 8
    (pkcs7_pad_bytes current_bytes target_byte_block_size).map bytes_to_bit_string

/-- `pkcs7_unpad_bit_string` (the `original_significant_bit_length`
parameter defaults to `None` in the source, hence the `Option`). -/
def pkcs7_unpad_bit_string (padded_bit_str : List Bool) (target_unpad_block_size_bits : Nat)
    (original_significant_bit_length : Option Nat) : Except Fault (List Bool) :=
  if padded_bit_str.length % 8 ≠ 0 then .error .invalidArgument
  else if target_unpad_block_size_bits ≤ 0 ∨ target_unpad_block_size_bits % 8 ≠ 0 then
    .error .invalidArgument
  else
    match pkcs7_unpad_bytes (bit_string_to_bytes padded_bit_str)
        (target_unpad_block_size_bits / 8) with
    | .error e => .error e
    | .ok unpadded_bytes =>
      let ubits := bytes_to_bit_string unpadded_bytes
      match original_significant_bit_length with
      | some len => if ubits.length < len then .error .lengthMismatch else .ok (ubits.take len)
      | none => .ok ubits

/-- The `num_errors` computed by `inject_bit_errors`: Python
`int(total_bits * error_percentage / 100.0)` — truncation toward zero of
the exact rational value, which equals `tdiv` of the unreduced numerator
`total_bits * pct.num` by the unreduced denominator `100 * pct.den` —
then the bump to 1 and the clamp to `total_bits`. -/
def num_errors (total_bits : Nat) (error_percentage : ℚ) : Int :=
  let n0 : Int := Int.tdiv ((total_bits : Int) * error_percentage.num)
    (100 * (error_percentage.den : Int))
  let n1 : Int := if n0 = 0 ∧ 0 < error_percentage ∧ 0 < total_bits then 1 else n0
  if n1 > (total_bits : Int) then (total_bits : Int) else n1

/-- One loop iteration of `inject_bit_errors`: flip the bit at `index`. -/
def flipAt (bl : List Bool) (index : Nat) : List Bool :=
  bl.set index (!(bl.getD index false))

/-- `inject_bit_errors`.  The indices drawn by `random.sample` are passed
in as the oracle `sample`; `random.sample` itself raises a `ValueError`
when asked for a negative number of indices, which is the only way the
source can fail.  Note the source performs NO validation of
`error_percentage`. -/
def inject_bit_errors (bit_str : List Bool) (error_percentage : ℚ) (sample : List Nat) :
    Except Fault (List Bool × Int) :=
  if error_percentage = 0 then .ok (bit_str, 0)
  else
    let num := num_errors bit_str.length error_percentage
    if num < 0 then .error .sampleFault
    else .ok (sample.foldl flipAt bit_str, num)

/-- What `random.sample(range(total), num)` guarantees about its result:
`num` distinct indices below `total`. -/
def ValidSample (total : Nat) (num : Int) (sample : List Nat) : Prop :=
  sample.Nodup ∧ (sample.length : Int) = num ∧ ∀ i ∈ sample, i < total

/-! ## linear.py -/

/-- The loop body of `_generate_P_matrix_columns`: walk the candidate
columns, skip identity columns, stop as soon as `k` columns are kept
(the source checks `len(P_cols) == self.k` after each append, so with
`k = 0` the break never fires and every candidate is kept). -/
def generatePColsGo (p k : Nat) : List (List Nat) → List (List Nat) → List (List Nat)
  | [], acc => acc
  | c :: rest, acc =>
    if (List.range p).any (fun i => c == unitVec p i) then generatePColsGo p k rest acc
    else
      let acc2 := acc ++ [c]
      if acc2.length = k then acc2 else generatePColsGo p k rest acc2

/-- `_generate_P_matrix_columns`: candidates are `format(i, '0{p}b')` for
`i = 1 .. 2^p - 1`; identity columns are skipped. -/
def generatePCols (p k : Nat) : List (List Nat) :=
  generatePColsGo p k ((List.range (2 ^ p - 1)).map (fun t => natBits p (t + 1))) []

/-- `np.hstack((P_matrix, I_p))` row by row: row `r` of `H` is row `r` of
`P` (entry `t` is `P_cols[t][r]`) followed by row `r` of `I_p`. -/
def buildH (p : Nat) (pcols : List (List Nat)) : List (List Nat) :=
  (List.range p).map (fun r => pcols.map (fun c => c.getD r 0) ++ unitVec p r)

/-- `np.hstack((I_k, P_matrix.T))` row by row: row `i` of `G` is row `i`
of `I_k` followed by `P_cols[i]`. -/
def buildG (k : Nat) (pcols : List (List Nat)) : List (List Nat) :=
  (List.range k).map (fun i => unitVec k i ++ pcols.getD i [])

/-- `(M @ v) % 2` for a row-major matrix. -/
def matVecMod2 (M : List (List Nat)) (v : List Nat) : List Nat :=
  M.map (fun row => dot row v % 2)

/-- Column `j` of a row-major matrix. -/
def col (M : List (List Nat)) (j : Nat) : List Nat := M.map (fun row => row.getD j 0)

/-- `(v @ M) % 2`: numpy gives one entry per column of `M`. -/
def vecMatMod2 (v : List Nat) (M : List (List Nat)) : List Nat :=
  (List.range (M.headD []).length).map (fun j => dot v (col M j) % 2)

/-- Python dict lookup on an insertion-ordered association list. -/
def assoc (key : List Nat) : List (List Nat × Nat) → Option Nat
  | [] => none
  | kv :: rest => if key = kv.1 then some kv.2 else assoc key rest

/-- `tuple((H @ error) % 2)` for the unit error at `pos`. -/
def syndromeAt (H : List (List Nat)) (n pos : Nat) : List Nat :=
  matVecMod2 H (unitVec n pos)

/-- `_build_syndrome_table`: for each position the unit-error syndrome,
inserted only when nonzero and not already present (first writer wins). -/
def buildSyndromeTable (H : List (List Nat)) (n : Nat) : List (List Nat × Nat) :=
  (List.range n).foldl (fun tbl pos =>
    let s := syndromeAt H n pos
    if s.any (fun b => b ≠ 0) ∧ assoc s tbl = none then tbl ++ [(s, pos)] else tbl) []

/-- The state of a constructed `LinearCodec` (`G_matrix` is `None` on
instances rebuilt by `from_parameters`). -/
structure LinearCodec where
  n : Nat
  k : Nat
  G_matrix : Option (List (List Nat))
  H_matrix : List (List Nat)
  syndrome_table : List (List Nat × Nat)
deriving DecidableEq, Repr

/-- `LinearCodec.__init__` followed by `_initialize_matrices`.  When the
candidate walk yields a number of P-columns different from `k` (or none
at all, which happens exactly when `k = 0` survives the walk), the numpy
`hstack` calls in `_initialize_matrices` raise a dimension-mismatch
`ValueError`: `np.array([]).T` is 1-D, and `hstack((I_k, P.T))` needs
`P.T` to have exactly `k` rows. -/
def LinearCodec.make (n k : Nat) : Except Fault LinearCodec :=
  if k ≥ n then .error .invalidArgument
  else
    let p := n - k
    let pcols := generatePCols p k
    if pcols.length ≠ k ∨ k = 0 then .error .shapeFault
    else
      let H := buildH p pcols
      .ok ⟨n, k, some (buildG k pcols), H, buildSyndromeTable H n⟩

/-- `LinearCodec.encode` (the source's `if not self.G_matrix is not None`
is `G is None`, raising `RuntimeError`). -/
def LinearCodec.encode (c : LinearCodec) (message : List Bool) : Except Fault (List Bool) :=
  match c.G_matrix with
  | none => .error .runtimeFault
  | some G =>
    if message.length ≠ c.k then .error .invalidArgument
    else .ok (ofVec (vecMatMod2 (toVec message) G))

/-- `LinearCodec.decode`: syndrome `(received @ H.T) % 2` (entry `i` is
`dot (H row i) received`), then at most one table-driven bit flip. -/
def LinearCodec.decode (c : LinearCodec) (received : List Bool) :
    Except Fault (List Bool × Nat) :=
  if received.length ≠ c.n then .error .invalidArgument
  else
    let rv := toVec received
    let syndrome := matVecMod2 c.H_matrix rv
    let corrected :=
      if syndrome.any (fun b => b ≠ 0) then
        match assoc syndrome c.syndrome_table with
        | some pos => (rv.set pos (rv.getD pos 0 ^^^ 1), 1)
        | none => (rv, 0)
      else (rv, 0)
    .ok (ofVec (corrected.1.take c.k), corrected.2)

/-- `LinearCodec.get_parameters` (on a constructed instance `H_matrix`
is never `None`, so the lazy re-initialisation branch is dead). -/
def LinearCodec.get_parameters (c : LinearCodec) : Nat × Nat × List (List Nat) :=
  (c.n, c.k, c.H_matrix)

/-- `LinearCodec.from_parameters`: run the constructor, then overwrite
`H_matrix` with the transmitted one, drop `G_matrix`, and rebuild the
syndrome table from the new `H`. -/
def LinearCodec.from_parameters (ps : Nat × Nat × List (List Nat)) :
    Except Fault LinearCodec :=
  (LinearCodec.make ps.1 ps.2.1).map (fun codec =>
    { codec with
      H_matrix := ps.2.2
      G_matrix := none
      syndrome_table := buildSyndromeTable ps.2.2 codec.n })

/-- Flip bit `j` of a bit string. -/
def flipBit (s : List Bool) (j : Nat) : List Bool := s.set j (!(s.getD j false))

/-- The codeword `encode` produces (before its length/None guards). -/
def codewordOf (c : LinearCodec) (message : List Bool) : List Bool :=
  ofVec (vecMatMod2 (toVec message) (c.G_matrix.getD []))

/-- The `(7,4)` instance used by the concrete witnesses. -/
def codec74 : LinearCodec :=
  (LinearCodec.make 7 4).toOption.getD ⟨0, 0, none, [], []⟩

/-- The receiver-side rebuild of `codec74` via the wire parameters. -/
def codec74_rebuilt : LinearCodec :=
  (LinearCodec.from_parameters codec74.get_parameters).toOption.getD codec74

/-- A concrete padded input (bytes `65, 1`: one payload byte and one
PKCS#7 pad byte) for the unpad witnesses. -/
def padded_example : List Bool := bytes_to_bit_string [65, 1]

/-! ## huffman.py -/

/-- A Python `Optional[HuffmanNode]`: `nil` is `None`; `node` carries
`symbol`, `frequency`, `left`, `right` exactly like the source class
(whose children are themselves `Optional[HuffmanNode]`, `None` at leaf
construction time). -/
inductive HTree where
  | nil
  | node (symbol : Option Nat) (frequency : Nat) (left right : HTree)
deriving DecidableEq, Repr

/-- `node.frequency` (read only on real nodes). -/
def HTree.freq : HTree → Nat
  | .nil => 0
  | .node _ f _ _ => f

/-- `heapq.heappop`: remove a minimal-frequency node.
`HuffmanNode.__lt__` orders by frequency only, so the heap contract
fixes the popped element only up to frequency ties; this model pops the
earliest minimal element (with `heapify` the identity), one fixed
deterministic choice consistent with that contract — all theorems below
are insensitive to the tie order, since compressor and decompressor run
the same deterministic build. -/
def popMin : List HTree → Option (HTree × List HTree)
  | [] => none
  | [t] => some (t, [])
  | t :: rest =>
    match popMin rest with
    | none => some (t, rest)
    | some (m, r) => if m.freq < t.freq then some (m, t :: r) else some (t, rest)

/-- The `while len(queue) > 1` merge loop of `_build_tree` (`queue[0]`
of an empty queue would be an IndexError; `_build_tree` never reaches
this with an empty queue). -/
def buildLoop (queue : List HTree) : HTree :=
  if queue.length ≤ 1 then queue.headD .nil
  else
    match hpop : popMin queue with
    | none => .nil
    | some (l, q1) =>
      match hpop2 : popMin q1 with
      | none => .nil
      | some (r, q2) =>
        buildLoop (q2 ++ [.node none (l.freq + r.freq) l r])
termination_by queue.length
decreasing_by
  have key : ∀ (q : List HTree) (a : HTree) (r : List HTree),
      popMin q = some (a, r) → q.length = r.length + 1 := by
    intro q
    induction q with
    | nil => intro a r h; cases h
    | cons t ts ih =>
      intro a r h
      cases ts with
      | nil =>
        simp only [popMin] at h
        injection h with hpair
        injection hpair with h1 h2
        subst h2
        rfl
      | cons u us =>
        cases hrec : popMin (u :: us) with
        | none =>
          have hu : popMin (t :: u :: us) = some (t, u :: us) := by
            simp [popMin, hrec]
          rw [hu] at h
          injection h with hpair
          injection hpair with h1 h2
          subst h2
          rfl
        | some mr =>
          obtain ⟨m, r0⟩ := mr
          by_cases hlt : m.freq < t.freq
          · have hu : popMin (t :: u :: us) = some (m, t :: r0) := by
              simp [popMin, hrec, hlt]
            rw [hu] at h
            injection h with hpair
            injection hpair with h1 h2
            subst h2
            have := ih m r0 hrec
            simp only [List.length_cons] at this ⊢
            omega
          · have hu : popMin (t :: u :: us) = some (t, u :: us) := by
              simp [popMin, hrec, hlt]
            rw [hu] at h
            injection h with hpair
            injection hpair with h1 h2
            subst h2
            rfl
  have h1 := key queue l q1 hpop
  have h2 := key q1 r q2 hpop2
  simp only [List.length_append, List.length_cons, List.length_nil]
  omega

/-- `_build_tree`: leaves from the frequency map in insertion order,
the single-symbol wrapper (left child only, right stays `None`), else
the merge loop. -/
def build_tree (freq_map : List (Nat × Nat)) : HTree :=
  if freq_map = [] then .nil
  else
    let queue := freq_map.map (fun sf => HTree.node (some sf.1) sf.2 .nil .nil)
    if queue.length = 1 then
      match queue with
      | [only_node] => HTree.node none only_node.freq only_node .nil
      | _ => .nil
    else buildLoop queue

/-- Python dict write `d[s] = v` on an insertion-ordered association
list: overwrite in place when the key exists, else append. -/
def dictInsert (cm : List (Nat × List Bool)) (s : Nat) (v : List Bool) :
    List (Nat × List Bool) :=
  if cm.any (fun kv => kv.1 == s) then
    cm.map (fun kv => if kv.1 == s then (s, v) else kv)
  else cm ++ [(s, v)]

/-- Python dict read `d[b]` on the same representation. -/
def lookupCode (b : Nat) : List (Nat × List Bool) → Option (List Bool)
  | [] => none
  | kv :: rest => if b = kv.1 then some kv.2 else lookupCode b rest

/-- `_generate_codes`: a node with a symbol gets `prefix or "0"`
(so an empty prefix becomes the 1-bit code `0`), an internal node
recurses into whichever children exist (recursing into `nil` leaves the
map unchanged, like the source's `if node.left:` guards). -/
def generate_codes (t : HTree) (pre : List Bool) (cm : List (Nat × List Bool)) :
    List (Nat × List Bool) :=
  match t with
  | .nil => cm
  | .node (some s) _ _ _ => dictInsert cm s (if pre = [] then [false] else pre)
  | .node none _ l r =>
    generate_codes r (pre ++ [true]) (generate_codes l (pre ++ [false]) cm)

/-- `collections.Counter` over a byte buffer, as the insertion-ordered
symbol ↦ count map Python produces (first-occurrence order). -/
def counter (data : List Nat) : List (Nat × Nat) :=
  data.foldl (fun m d =>
    if m.any (fun kv => kv.1 == d) then
      m.map (fun kv => if kv.1 == d then (kv.1, kv.2 + 1) else kv)
    else m ++ [(d, 1)]) []

/-- `''.join(self.code_map[b] for b in data)`; a byte without a code
would be a dict `KeyError`. -/
def encodeData (cm : List (Nat × List Bool)) : List Nat → Except Fault (List Bool)
  | [] => .ok []
  | b :: rest =>
    match lookupCode b cm with
    | none => .error .keyFault
    | some cw => (encodeData cm rest).map (fun bits => cw ++ bits)

/-- `HuffmanCodec.compress` on a fresh codec (`self.code_map` empty, so
`build()` runs `Counter`, `_build_tree` and `_generate_codes`). -/
def compress (data : List Nat) : Except Fault (List Bool × List (Nat × Nat)) :=
  if data = [] then .ok ([], [])
  else
    let freq := counter data
    let root := build_tree freq
    let cm := generate_codes root [] []
    (encodeData cm data).map (fun bits => (bits, freq))

/-- The decode walk of `HuffmanCodec.decompress`: per bit step into
`node.left` / `node.right`; stepping from `None`, or reading `.symbol`
of a `None` child, is an `AttributeError`; a leaf emits its symbol and
resets to the root; an unterminated partial traversal is dropped when
the bits run out. -/
def walkDecode (root : HTree) : List Bool → HTree → Except Fault (List Nat)
  | [], _ => .ok []
  | _ :: _, .nil => .error .attributeFault
  | b :: rest, .node _ _ l r =>
    match (if b then r else l) with
    | .nil => .error .attributeFault
    | .node (some s) _ _ _ => (walkDecode root rest root).map (fun ds => s :: ds)
    | .node none f2 l2 r2 => walkDecode root rest (.node none f2 l2 r2)

/-- `HuffmanCodec.decompress` with an explicit frequency table (the
source then always rebuilds its tree from that table). -/
def decompress (bit_string : List Bool) (frequency_map : List (Nat × Nat)) :
    Except Fault (List Nat) :=
  if frequency_map = [] then .ok []
  else walkDecode (build_tree frequency_map) bit_string (build_tree frequency_map)

/-- Symbols of a subtree, in `_generate_codes` traversal order (a node
with a symbol counts as a leaf, exactly as `_generate_codes` treats it). -/
def HTree.symbols : HTree → List Nat
  | .nil => []
  | .node (some s) _ _ _ => [s]
  | .node none _ l r => l.symbols ++ r.symbols

/-- The decode-walk path relation: following `path` from `t` steps only
through internal nodes and ends at the leaf labelled `s`. -/
inductive Descends : HTree → List Bool → Nat → Prop where
  | here {s : Nat} {f : Nat} {l r : HTree} : Descends (.node (some s) f l r) [] s
  | stepL {f : Nat} {l r : HTree} {path : List Bool} {s : Nat} :
      Descends l path s → Descends (.node none f l r) (false :: path) s
  | stepR {f : Nat} {l r : HTree} {path : List Bool} {s : Nat} :
      Descends r path s → Descends (.node none f l r) (true :: path) s

/-! ## Bit and list lemmas -/

theorem bitVal_lt_two (b : Bool) : bitVal b < 2 := by
  cases b <;> simp [bitVal]

theorem bitVal_eq_one (b : Bool) : (bitVal b == 1) = b := by
  cases b <;> simp [bitVal]

theorem ofVec_toVec (s : List Bool) : ofVec (toVec s) = s := by
  simp [ofVec, toVec, List.map_map, Function.comp_def, bitVal_eq_one]

theorem toVec_length (s : List Bool) : (toVec s).length = s.length := by
  simp [toVec]

theorem toVec_mem_lt_two (s : List Bool) : ∀ x ∈ toVec s, x < 2 := by
  intro x hx
  rcases List.mem_map.mp hx with ⟨b, _, rfl⟩
  exact bitVal_lt_two b

theorem natBits_length (p i : Nat) : (natBits p i).length = p := by
  simp [natBits]

theorem natBits_mem_lt_two (p i : Nat) : ∀ x ∈ natBits p i, x < 2 := by
  intro x hx
  rcases List.mem_map.mp hx with ⟨j, _, rfl⟩
  exact Nat.mod_lt _ (by omega)

theorem natBits_succ (p i : Nat) :
    natBits (p + 1) i = (i / 2 ^ p % 2) :: natBits p i := by
  simp only [natBits, List.range_succ_eq_map, List.map_cons, List.map_map]
  congr 1
  apply List.map_congr_left
  intro j hj
  simp only [Function.comp_apply]
  have h2 : p + 1 - 1 - Nat.succ j = p - 1 - j := by omega
  rw [h2]

theorem fromBits_cons (b : Nat) (l : List Nat) :
    fromBits (b :: l) = b * 2 ^ l.length + fromBits l := by
  suffices h : ∀ (l : List Nat) (a : Nat),
      l.foldl (fun a b => 2 * a + b) a = a * 2 ^ l.length + l.foldl (fun a b => 2 * a + b) 0 by
    simp only [fromBits, List.foldl_cons]
    rw [h l (2 * 0 + b)]
    ring_nf
  intro l
  induction l with
  | nil => intro a; simp
  | cons x xs ih =>
    intro a
    simp only [List.foldl_cons, List.length_cons]
    rw [ih (2 * a + x), ih (2 * 0 + x)]
    ring

theorem fromBits_lt (l : List Nat) (h : ∀ x ∈ l, x < 2) :
    fromBits l < 2 ^ l.length := by
  induction l with
  | nil => simp [fromBits]
  | cons b bs ih =>
    rw [fromBits_cons]
    have hb : b < 2 := h b (by simp)
    have hbs := ih (fun x hx => h x (List.mem_cons_of_mem _ hx))
    simp only [List.length_cons, pow_succ]
    nlinarith

theorem fromBits_natBits (p i : Nat) : fromBits (natBits p i) = i % 2 ^ p := by
  induction p with
  | zero => simp [natBits, fromBits, Nat.mod_one]
  | succ p ih =>
    rw [natBits_succ, fromBits_cons, natBits_length, ih, pow_succ, Nat.mod_mul]
    ring

theorem fromBits_eq_zero_iff (l : List Nat) :
    fromBits l = 0 ↔ ∀ x ∈ l, x = 0 := by
  induction l with
  | nil => simp [fromBits]
  | cons b bs ih =>
    rw [fromBits_cons]
    have hpow : 0 < 2 ^ bs.length := Nat.two_pow_pos bs.length
    constructor
    · intro h x hx
      rcases Nat.add_eq_zero.mp h with ⟨hb, hr⟩
      have hb0 : b = 0 := by
        rcases Nat.mul_eq_zero.mp hb with h' | h'
        · exact h'
        · omega
      rcases List.mem_cons.mp hx with rfl | hx'
      · exact hb0
      · exact ih.mp hr x hx'
    · intro h
      have hb : b = 0 := h b (by simp)
      have : fromBits bs = 0 := ih.mpr (fun x hx => h x (List.mem_cons_of_mem _ hx))
      simp [hb, this]

theorem fromBits_inj (l m : List Nat) (hlen : l.length = m.length)
    (hl : ∀ x ∈ l, x < 2) (hm : ∀ x ∈ m, x < 2)
    (h : fromBits l = fromBits m) : l = m := by
  induction l generalizing m with
  | nil => cases m with
    | nil => rfl
    | cons y ys => simp at hlen
  | cons x xs ih =>
    cases m with
    | nil => simp at hlen
    | cons y ys =>
      simp only [List.length_cons, Nat.succ.injEq] at hlen
      rw [fromBits_cons, fromBits_cons, hlen] at h
      have hx : x < 2 := hl x (by simp)
      have hy : y < 2 := hm y (by simp)
      have hxs : fromBits xs < 2 ^ ys.length := by
        rw [← hlen]; exact fromBits_lt xs (fun a ha => hl a (List.mem_cons_of_mem _ ha))
      have hys : fromBits ys < 2 ^ ys.length := fromBits_lt ys (fun a ha => hm a (List.mem_cons_of_mem _ ha))
      have hxy : x = y := by nlinarith
      subst hxy
      have hfb : fromBits xs = fromBits ys := by omega
      have := ih ys hlen (fun a ha => hl a (List.mem_cons_of_mem _ ha))
        (fun a ha => hm a (List.mem_cons_of_mem _ ha)) hfb
      rw [this]

theorem natBits_fromBits (l : List Nat) (hl : ∀ x ∈ l, x < 2) :
    natBits l.length (fromBits l) = l := by
  apply fromBits_inj _ _ (by rw [natBits_length]) (natBits_mem_lt_two _ _) hl
  rw [fromBits_natBits]
  exact Nat.mod_eq_of_lt (fromBits_lt l hl)

/-! ## Generic list helpers -/

theorem getD_range_map {α : Type} (f : Nat → α) (n j : Nat) (d : α) (hj : j < n) :
    ((List.range n).map f).getD j d = f j := by
  rw [List.getD_eq_getElem?_getD, List.getElem?_map, List.getElem?_range hj]
  rfl

theorem getD_map {α β : Type} (f : α → β) (l : List α) (i : Nat) (d : α) :
    (l.map f).getD i (f d) = f (l.getD i d) := by
  induction l generalizing i with
  | nil => simp
  | cons x xs ih =>
    cases i with
    | zero => simp
    | succ j => simpa using ih j

theorem range_map_getD {α : Type} (l : List α) (d : α) (n : Nat) (h : l.length = n) :
    (List.range n).map (fun i => l.getD i d) = l := by
  subst h
  induction l with
  | nil => simp
  | cons x xs ih =>
    rw [List.length_cons, List.range_succ_eq_map, List.map_cons, List.map_map]
    congr 1

theorem set_getD_self (l : List Nat) (i : Nat) (hi : i < l.length) :
    l.set i (l.getD i 0) = l := by
  induction l generalizing i with
  | nil => simp
  | cons x xs ih =>
    cases i with
    | zero => simp
    | succ j =>
      simp only [List.length_cons, Nat.succ_lt_succ_iff] at hi
      simp only [List.getD_cons_succ, List.set_cons_succ]
      rw [ih j hi]

theorem unitVec_length (m t : Nat) : (unitVec m t).length = m := by
  simp [unitVec]

theorem unitVec_getD (m t j : Nat) (hj : j < m) :
    (unitVec m t).getD j 0 = if j = t then 1 else 0 := by
  rw [unitVec, getD_range_map _ _ _ _ hj]

theorem unitVec_inj (m s t : Nat) (hs : s < m) (ht : t < m)
    (h : unitVec m s = unitVec m t) : s = t := by
  by_contra hne
  have h1 : (unitVec m s).getD s 0 = (unitVec m t).getD s 0 := by rw [h]
  rw [unitVec_getD m s s hs, unitVec_getD m t s hs] at h1
  simp [hne] at h1

theorem dot_nil_left (ys : List Nat) : dot [] ys = 0 := by simp [dot]

theorem dot_nil_right (xs : List Nat) : dot xs [] = 0 := by simp [dot]

theorem dot_cons (x y : Nat) (xs ys : List Nat) :
    dot (x :: xs) (y :: ys) = x * y + dot xs ys := by
  simp [dot]

theorem dot_comm (xs ys : List Nat) : dot xs ys = dot ys xs := by
  induction xs generalizing ys with
  | nil => cases ys <;> simp [dot]
  | cons x xs ih =>
    cases ys with
    | nil => simp [dot]
    | cons y ys => rw [dot_cons, dot_cons, ih, Nat.mul_comm]

theorem dot_append (a b c d : List Nat) (h : a.length = c.length) :
    dot (a ++ b) (c ++ d) = dot a c + dot b d := by
  simp [dot, List.zipWith_append _ _ _ _ _ h]

theorem dot_sum (a b : List Nat) (n : Nat) (ha : a.length = n) (hb : b.length = n) :
    dot a b = ∑ j ∈ Finset.range n, a.getD j 0 * b.getD j 0 := by
  induction a generalizing b n with
  | nil =>
    subst ha
    simp [dot]
  | cons x xs ih =>
    cases b with
    | nil => rw [← hb] at ha; simp at ha
    | cons y ys =>
      subst ha
      simp only [List.length_cons] at hb ⊢
      rw [dot_cons, Finset.sum_range_succ']
      simp only [List.getD_cons_succ, List.getD_cons_zero]
      rw [ih ys xs.length rfl (by omega)]
      ring

theorem dot_unitVec (v : List Nat) (m t : Nat) (hv : v.length = m) (ht : t < m) :
    dot v (unitVec m t) = v.getD t 0 := by
  rw [dot_sum v (unitVec m t) m hv (unitVec_length m t)]
  have : ∀ j ∈ Finset.range m,
      v.getD j 0 * (unitVec m t).getD j 0 = if j = t then v.getD t 0 else 0 := by
    intro j hj
    rw [unitVec_getD m t j (Finset.mem_range.mp hj)]
    by_cases hjt : j = t
    · simp [hjt]
    · simp [hjt]
  rw [Finset.sum_congr rfl this, Finset.sum_ite_eq' (Finset.range m) t]
  simp [Finset.mem_range.mpr ht]

theorem dot_set (a v : List Nat) (j x : Nat) (hj : j < v.length) :
    dot a (v.set j x) + a.getD j 0 * v.getD j 0 = dot a v + a.getD j 0 * x := by
  induction a generalizing v j with
  | nil => simp [dot]
  | cons c cs ih =>
    cases v with
    | nil => simp at hj
    | cons y ys =>
      cases j with
      | zero =>
        simp only [List.set_cons_zero, dot_cons, List.getD_cons_zero]
        ring
      | succ i =>
        simp only [List.length_cons, Nat.succ_lt_succ_iff] at hj
        simp only [List.set_cons_succ, dot_cons, List.getD_cons_succ]
        have := ih ys i hj
        omega

/-! ## utils.py lemmas -/

theorem toChunks_nil : toChunks [] = [] := by
  rw [toChunks]
  simp

theorem toChunks_cons (l : List Bool) (h : l ≠ []) :
    toChunks l = l.take 8 :: toChunks (l.drop 8) := by
  rw [toChunks]
  simp [h]

theorem toChunks_flatten (l : List Bool) : (toChunks l).flatten = l := by
  have H : ∀ (n : Nat) (l : List Bool), l.length ≤ n → (toChunks l).flatten = l := by
    intro n
    induction n with
    | zero =>
      intro l hl
      have : l = [] := List.eq_nil_of_length_eq_zero (by omega)
      subst this
      simp [toChunks_nil]
    | succ n ih =>
      intro l hl
      by_cases h : l = []
      · subst h
        simp [toChunks_nil]
      · rw [toChunks_cons l h, List.flatten_cons]
        have hpos : 0 < l.length := List.length_pos.mpr h
        rw [ih (l.drop 8) (by rw [List.length_drop]; omega), List.take_append_drop]
  exact H l.length l le_rfl

theorem toChunks_length_eight (l : List Bool) (h8 : l.length % 8 = 0) :
    ∀ ch ∈ toChunks l, ch.length = 8 := by
  have H : ∀ (n : Nat) (l : List Bool), l.length ≤ n → l.length % 8 = 0 →
      ∀ ch ∈ toChunks l, ch.length = 8 := by
    intro n
    induction n with
    | zero =>
      intro l hl _
      have : l = [] := List.eq_nil_of_length_eq_zero (by omega)
      subst this
      simp [toChunks_nil]
    | succ n ih =>
      intro l hl hmod
      by_cases h : l = []
      · subst h
        simp [toChunks_nil]
      · rw [toChunks_cons l h]
        have hpos : 0 < l.length := List.length_pos.mpr h
        have hge : 8 ≤ l.length := by omega
        intro ch hch
        rcases List.mem_cons.mp hch with rfl | htail
        · rw [List.length_take]
          omega
        · exact ih (l.drop 8) (by rw [List.length_drop]; omega)
            (by rw [List.length_drop]; omega) ch htail
  exact H l.length l le_rfl h8

theorem toChunks_blocks (bls : List (List Bool)) (h : ∀ b ∈ bls, b.length = 8) :
    toChunks bls.flatten = bls := by
  induction bls with
  | nil => simp [toChunks_nil]
  | cons b rest ih =>
    have hb : b.length = 8 := h b (by simp)
    have hbne : (b ++ rest.flatten) ≠ [] := by
      intro hcontra
      have : b = [] := by
        rcases List.append_eq_nil.mp hcontra with ⟨h1, _⟩
        exact h1
      simp [this] at hb
    rw [List.flatten_cons, toChunks_cons _ hbne]
    congr 1
    · rw [List.take_append_of_le_length (by omega), ← hb, List.take_length]
    · rw [List.drop_append_of_le_length (by omega), ← hb, List.drop_length]
      simp only [List.nil_append]
      exact ih (fun x hx => h x (List.mem_cons_of_mem _ hx))

theorem toVec_ofVec (v : List Nat) (hv : ∀ x ∈ v, x < 2) : toVec (ofVec v) = v := by
  rw [toVec, ofVec, List.map_map]
  have : ∀ x ∈ v, (bitVal ∘ fun x => x == 1) x = x := by
    intro x hx
    have : x < 2 := hv x hx
    interval_cases x <;> simp [bitVal]
  rw [List.map_congr_left this, List.map_id']

theorem ofVec_length (v : List Nat) : (ofVec v).length = v.length := by simp [ofVec]

theorem bytes_to_bit_string_block_length (b : Nat) : (ofVec (natBits 8 b)).length = 8 := by
  rw [ofVec_length, natBits_length]

theorem bytes_to_bit_string_length (bl : List Nat) :
    (bytes_to_bit_string bl).length = 8 * bl.length := by
  induction bl with
  | nil => simp [bytes_to_bit_string]
  | cons b rest ih =>
    rw [bytes_to_bit_string, List.map_cons, List.flatten_cons, List.length_append,
      bytes_to_bit_string_block_length]
    rw [bytes_to_bit_string] at ih
    rw [ih, List.length_cons]
    ring

/-- Unpacking after packing restores the bit string, zero-filled to the
next byte boundary. -/
theorem bytes_of_bits_roundtrip (S : List Bool) :
    bytes_to_bit_string (bit_string_to_bytes S) =
      S ++ List.replicate ((8 - S.length % 8) % 8) false := by
  by_cases h : S = []
  · subst h
    simp [bit_string_to_bytes, bytes_to_bit_string]
  · rw [bit_string_to_bytes, if_neg h]
    set padded := S ++ List.replicate ((8 - S.length % 8) % 8) false with hpadded
    have hlen : padded.length % 8 = 0 := by
      rw [hpadded, List.length_append, List.length_replicate]
      omega
    rw [bytes_to_bit_string, List.map_map]
    have hch : ∀ ch ∈ toChunks padded,
        (fun ch => ofVec (natBits 8 (fromBits (toVec ch)))) ch = ch := by
      intro ch hmem
      have hl : ch.length = 8 := toChunks_length_eight padded hlen ch hmem
      have hv : ∀ x ∈ toVec ch, x < 2 := toVec_mem_lt_two ch
      have hlv : (toVec ch).length = 8 := by rw [toVec_length, hl]
      simp only []
      rw [← hlv, natBits_fromBits (toVec ch) hv, ofVec_toVec]
    have : (toChunks padded).map
        ((fun ch => ofVec (natBits 8 ch)) ∘ fun ch => fromBits (toVec ch)) = toChunks padded := by
      refine List.map_congr_left ?_ |>.trans (List.map_id' _)
      intro ch hmem
      exact hch ch hmem
    rw [this, toChunks_flatten]

theorem bit_string_to_bytes_mem_lt (S : List Bool) :
    ∀ b ∈ bit_string_to_bytes S, b < 256 := by
  intro b hb
  by_cases h : S = []
  · subst h
    simp [bit_string_to_bytes] at hb
  · rw [bit_string_to_bytes, if_neg h] at hb
    rcases List.mem_map.mp hb with ⟨ch, hchmem, rfl⟩
    have hlen8 : ch.length = 8 := by
      apply toChunks_length_eight _ _ ch hchmem
      rw [List.length_append, List.length_replicate]
      omega
    have hfb := fromBits_lt (toVec ch) (toVec_mem_lt_two ch)
    rw [toVec_length, hlen8] at hfb
    exact hfb

/-- Packing after unpacking restores the byte list (bytes are < 256). -/
theorem bits_of_bytes_roundtrip (bl : List Nat) (hb : ∀ b ∈ bl, b < 256) :
    bit_string_to_bytes (bytes_to_bit_string bl) = bl := by
  by_cases h : bl = []
  · subst h
    simp [bytes_to_bit_string, bit_string_to_bytes]
  · have hlen : (bytes_to_bit_string bl).length = 8 * bl.length :=
      bytes_to_bit_string_length bl
    have hne : bytes_to_bit_string bl ≠ [] := by
      intro hcontra
      have h0 : (bytes_to_bit_string bl).length = 0 := by rw [hcontra]; rfl
      rw [hlen] at h0
      have := List.length_pos.mpr h
      omega
    have hz : (8 - (bytes_to_bit_string bl).length % 8) % 8 = 0 := by
      rw [hlen]
      omega
    have hblocks : toChunks (bytes_to_bit_string bl) = bl.map (fun b => ofVec (natBits 8 b)) := by
      rw [bytes_to_bit_string]
      exact toChunks_blocks _ (fun b hmem => by
        rcases List.mem_map.mp hmem with ⟨x, _, rfl⟩
        exact bytes_to_bit_string_block_length x)
    rw [bit_string_to_bytes, if_neg hne]
    simp only [hz, List.replicate_zero, List.append_nil]
    rw [hblocks, List.map_map]
    have : ∀ x ∈ bl, ((fun ch => fromBits (toVec ch)) ∘ fun b => ofVec (natBits 8 b)) x = x := by
      intro x hx
      simp only [Function.comp_apply]
      rw [toVec_ofVec _ (natBits_mem_lt_two 8 x), ← natBits_length 8 x]
      rw [fromBits_natBits]
      rw [natBits_length]
      exact Nat.mod_eq_of_lt (hb x hx)
    rw [List.map_congr_left this, List.map_id']

theorem getLastD_append_replicate (data : List Nat) (p : Nat) (hp : 1 ≤ p) :
    (data ++ List.replicate p p).getLastD 0 = p := by
  rw [List.getLastD_eq_getLast?, List.getLast?_append, List.getLast?_replicate,
    if_neg (by omega)]
  rfl

/-- Byte-level PKCS#7 round trip, for block sizes the source accepts. -/
theorem pkcs7_bytes_roundtrip (data : List Nat) (B : Nat) (h1 : 1 ≤ B) (h2 : B ≤ 255) :
    pkcs7_pad_bytes data B =
      .ok (data ++ List.replicate (B - data.length % B) (B - data.length % B)) ∧
    pkcs7_unpad_bytes (data ++ List.replicate (B - data.length % B) (B - data.length % B)) B =
      .ok data := by
  have hmod : data.length % B < B := Nat.mod_lt _ (by omega)
  set p := B - data.length % B with hp
  have hp1 : 1 ≤ p := by omega
  have hpB : p ≤ B := by omega
  constructor
  · rw [pkcs7_pad_bytes, if_neg (by omega)]
  · have hne : data ++ List.replicate p p ≠ [] := by
      intro hcontra
      rcases List.append_eq_nil.mp hcontra with ⟨_, h2'⟩
      have : (List.replicate p p).length = 0 := by rw [h2']; rfl
      rw [List.length_replicate] at this
      omega
    rw [pkcs7_unpad_bytes, if_neg hne]
    rw [getLastD_append_replicate data p hp1]
    rw [if_neg (by omega)]
    have hlen : (data ++ List.replicate p p).length = data.length + p := by
      rw [List.length_append, List.length_replicate]
    rw [if_neg (by omega)]
    rw [hlen]
    have : data.length + p - p = data.length := by omega
    rw [this, List.take_left]

/--
Claim C3 (amended): for every bit sequence `S` and block size `bs` that is
a positive multiple of 8 **not exceeding 2040** (so that the byte block
size fits the PKCS#7 byte-value range 1..255 that `pkcs7_pad_bytes`
enforces), `unpad(pad(S, bs), bs, len S) = S`.
-/
theorem pad_unpad_bit_roundtrip (S : List Bool) (bs : Nat)
    (h1 : 0 < bs) (h2 : bs % 8 = 0) (h3 : bs ≤ 2040) :
    ∃ padded, pkcs7_pad_bit_string S bs = .ok padded ∧
      pkcs7_unpad_bit_string padded bs (some S.length) = .ok S := by
  have hbs8 : 8 ≤ bs := by omega
  have hB1 : 1 ≤ bs / 8 := by omega
  have hB2 : bs / 8 ≤ 255 := by omega
  set data := bit_string_to_bytes S with hdata
  set p := bs / 8 - data.length % (bs / 8) with hpdef
  obtain ⟨hpad, hunpad⟩ := pkcs7_bytes_roundtrip data (bs / 8) hB1 hB2
  set pbytes := data ++ List.replicate p p with hpbytes
  refine ⟨bytes_to_bit_string pbytes, ?_, ?_⟩
  · simp only [pkcs7_pad_bit_string]
    rw [if_neg (by omega), ← hdata, hpad]
    rfl
  · have hlenp : (bytes_to_bit_string pbytes).length = 8 * pbytes.length :=
      bytes_to_bit_string_length pbytes
    have hmem : ∀ b ∈ pbytes, b < 256 := by
      intro b hb
      rcases List.mem_append.mp hb with hb | hb
      · exact bit_string_to_bytes_mem_lt S b hb
      · have := List.eq_of_mem_replicate hb
        subst this
        have hmod : data.length % (bs / 8) < bs / 8 := Nat.mod_lt _ (by omega)
        omega
    simp only [pkcs7_unpad_bit_string]
    rw [if_neg (by rw [hlenp]; omega), if_neg (by omega),
      bits_of_bytes_roundtrip pbytes hmem, hunpad]
    have hub := bytes_of_bits_roundtrip S
    rw [← hdata] at hub
    show (if (bytes_to_bit_string data).length < S.length then Except.error Fault.lengthMismatch
      else Except.ok (List.take S.length (bytes_to_bit_string data))) = Except.ok S
    rw [hub]
    have hlu : (S ++ List.replicate ((8 - S.length % 8) % 8) false).length =
        S.length + (8 - S.length % 8) % 8 := by
      rw [List.length_append, List.length_replicate]
    rw [if_neg (by rw [hlu]; omega)]
    rw [List.take_append_of_le_length (le_refl _), List.take_length]

/--
Claim C3 (counterexample): 2048 is a positive multiple of 8, yet `pad`
fails on it with the block-size `ValueError` of `pkcs7_pad_bytes`
(2048 bits = 256 bytes > 255), so "pad and unpad fail only when bs is not
a positive multiple of 8" is false.
-/
theorem pad_bit_string_large_block_fails :
    2048 % 8 = 0 ∧ 0 < 2048 ∧
      pkcs7_pad_bit_string [] 2048 = .error .invalidArgument :=
  ⟨rfl, by omega, rfl⟩

/--
Claim C3 (witness): `S = "1"`, `bs = 8`.
-/
theorem pad_unpad_bit_roundtrip_witness :
    ∃ padded, pkcs7_pad_bit_string [true] 8 = .ok padded ∧
      pkcs7_unpad_bit_string padded 8 (some 1) = .ok [true] :=
  pad_unpad_bit_roundtrip [true] 8 (by omega) (by omega) (by omega)

/--
Claim C7: on a byte-aligned non-empty padded input and a valid block
size, `unpad` reads the trailing byte as the pad length `p`, fails with
InvalidPadding exactly when `p = 0`, `p >` blockSizeBytes or
`p >` len(data), fails with LengthMismatch when the unpadded bit length
is shorter than the claimed original length, and otherwise returns
exactly the first `originalSignificantBitLength` bits of the stripped
data.
-/
theorem unpad_bit_string_cases (P : List Bool) (bs L : Nat)
    (hne : P ≠ []) (h8 : P.length % 8 = 0) (hbs0 : 0 < bs) (hbs8 : bs % 8 = 0) :
    (((bit_string_to_bytes P).getLastD 0 = 0 ∨
        (bit_string_to_bytes P).getLastD 0 > bs / 8 ∨
        (bit_string_to_bytes P).getLastD 0 > (bit_string_to_bytes P).length) →
      pkcs7_unpad_bit_string P bs (some L) = .error .invalidPadding) ∧
    (¬((bit_string_to_bytes P).getLastD 0 = 0 ∨
        (bit_string_to_bytes P).getLastD 0 > bs / 8 ∨
        (bit_string_to_bytes P).getLastD 0 > (bit_string_to_bytes P).length) →
      ((bytes_to_bit_string ((bit_string_to_bytes P).take
          ((bit_string_to_bytes P).length - (bit_string_to_bytes P).getLastD 0))).length < L →
        pkcs7_unpad_bit_string P bs (some L) = .error .lengthMismatch) ∧
      (L ≤ (bytes_to_bit_string ((bit_string_to_bytes P).take
          ((bit_string_to_bytes P).length - (bit_string_to_bytes P).getLastD 0))).length →
        pkcs7_unpad_bit_string P bs (some L) =
          .ok ((bytes_to_bit_string ((bit_string_to_bytes P).take
            ((bit_string_to_bytes P).length - (bit_string_to_bytes P).getLastD 0))).take L))) := by
  have hdne : bit_string_to_bytes P ≠ [] := by
    intro hcontra
    have h0 := bytes_to_bit_string_length (bit_string_to_bytes P)
    rw [bytes_of_bits_roundtrip P, hcontra] at h0
    simp only [List.length_nil, List.length_append, List.length_replicate,
      Nat.mul_zero] at h0
    have := List.length_pos.mpr hne
    omega
  set data := bit_string_to_bytes P with hdata
  set p := data.getLastD 0 with hp
  have hmain : pkcs7_unpad_bit_string P bs (some L) =
      (if p = 0 ∨ p > bs / 8 then Except.error Fault.invalidPadding
       else if p > data.length then Except.error Fault.invalidPadding
       else if (bytes_to_bit_string (data.take (data.length - p))).length < L then
         Except.error Fault.lengthMismatch
       else .ok ((bytes_to_bit_string (data.take (data.length - p))).take L)) := by
    simp only [pkcs7_unpad_bit_string, pkcs7_unpad_bytes]
    rw [if_neg (by omega), if_neg (by omega), ← hdata, if_neg hdne, ← hp]
    rcases Decidable.em (p = 0 ∨ p > bs / 8) with hc1 | hc1
    · rw [if_pos hc1, if_pos hc1]
    · rw [if_neg hc1, if_neg hc1]
      rcases Decidable.em (p > data.length) with hc2 | hc2
      · rw [if_pos hc2, if_pos hc2]
      · rw [if_neg hc2, if_neg hc2]
  rw [hmain]
  constructor
  · intro hbad
    rcases Decidable.em (p = 0 ∨ p > bs / 8) with hc1 | hc1
    · rw [if_pos hc1]
    · have hc2 : p > data.length := by tauto
      rw [if_neg hc1, if_pos hc2]
  · intro hgood
    have hc1 : ¬(p = 0 ∨ p > bs / 8) := by tauto
    have hc2 : ¬(p > data.length) := by tauto
    rw [if_neg hc1, if_neg hc2]
    constructor
    · intro hshort
      rw [if_pos hshort]
    · intro hlong
      rw [if_neg (by omega)]

/--
Claim C7 (witness): the two-byte padded input `65, 1` with block size 8
bits and original length 5.
-/
theorem unpad_bit_string_cases_witness :
    (((bit_string_to_bytes padded_example).getLastD 0 = 0 ∨
        (bit_string_to_bytes padded_example).getLastD 0 > 8 / 8 ∨
        (bit_string_to_bytes padded_example).getLastD 0 >
          (bit_string_to_bytes padded_example).length) →
      pkcs7_unpad_bit_string padded_example 8 (some 5) = .error .invalidPadding) ∧
    (¬((bit_string_to_bytes padded_example).getLastD 0 = 0 ∨
        (bit_string_to_bytes padded_example).getLastD 0 > 8 / 8 ∨
        (bit_string_to_bytes padded_example).getLastD 0 >
          (bit_string_to_bytes padded_example).length) →
      ((bytes_to_bit_string ((bit_string_to_bytes padded_example).take
          ((bit_string_to_bytes padded_example).length -
            (bit_string_to_bytes padded_example).getLastD 0))).length < 5 →
        pkcs7_unpad_bit_string padded_example 8 (some 5) = .error .lengthMismatch) ∧
      (5 ≤ (bytes_to_bit_string ((bit_string_to_bytes padded_example).take
          ((bit_string_to_bytes padded_example).length -
            (bit_string_to_bytes padded_example).getLastD 0))).length →
        pkcs7_unpad_bit_string padded_example 8 (some 5) =
          .ok ((bytes_to_bit_string ((bit_string_to_bytes padded_example).take
            ((bit_string_to_bytes padded_example).length -
              (bit_string_to_bytes padded_example).getLastD 0))).take 5))) :=
  unpad_bit_string_cases padded_example 8 5 (by decide) (by decide) (by omega) (by decide)

/-! ## inject_bit_errors lemmas -/

theorem flipAt_length (bits : List Bool) (i : Nat) : (flipAt bits i).length = bits.length :=
  List.length_set bits i _

theorem foldl_flipAt_length (sample : List Nat) (bits : List Bool) :
    (sample.foldl flipAt bits).length = bits.length := by
  induction sample generalizing bits with
  | nil => rfl
  | cons i rest ih => rw [List.foldl_cons, ih, flipAt_length]

theorem flipAt_getD (bits : List Bool) (i j : Nat) (hj : j < bits.length) :
    (flipAt bits i).getD j false =
      if j = i then !(bits.getD j false) else bits.getD j false := by
  by_cases hji : j = i
  · subst hji
    rw [if_pos rfl, flipAt, List.getD_eq_getElem?_getD, List.getElem?_set_self (by omega)]
    rfl
  · rw [if_neg hji, flipAt, List.getD_eq_getElem?_getD,
      List.getElem?_set_ne (fun hcontra => hji hcontra.symm), ← List.getD_eq_getElem?_getD]

theorem foldl_flipAt_getD (sample : List Nat) (bits : List Bool) (hnd : sample.Nodup)
    (hin : ∀ i ∈ sample, i < bits.length) (j : Nat) (hj : j < bits.length) :
    (sample.foldl flipAt bits).getD j false =
      if j ∈ sample then !(bits.getD j false) else bits.getD j false := by
  induction sample generalizing bits with
  | nil => simp
  | cons i rest ih =>
    rw [List.foldl_cons]
    have hndr : rest.Nodup := (List.nodup_cons.mp hnd).2
    have hir : i ∉ rest := (List.nodup_cons.mp hnd).1
    have hinr : ∀ x ∈ rest, x < (flipAt bits i).length := by
      rw [flipAt_length]
      exact fun x hx => hin x (List.mem_cons_of_mem _ hx)
    rw [ih (flipAt bits i) hndr hinr (by rw [flipAt_length]; exact hj)]
    rw [flipAt_getD bits i j hj]
    by_cases hjr : j ∈ rest
    · have hji : j ≠ i := fun hcontra => hir (hcontra ▸ hjr)
      rw [if_pos hjr, if_neg hji, if_pos (List.mem_cons_of_mem _ hjr)]
    · rw [if_neg hjr]
      by_cases hji : j = i
      · rw [if_pos hji, if_pos (hji ▸ List.mem_cons_self i rest)]
      · rw [if_neg hji, if_neg (by simp [hji, hjr])]

theorem num_errors_zero (total : Nat) : num_errors total 0 = 0 := by
  simp [num_errors, Int.zero_tdiv]

theorem num_errors_nonneg (total : Nat) (pct : ℚ) (h : 0 ≤ pct) :
    0 ≤ num_errors total pct := by
  simp only [num_errors]
  have hfl : (0 : Int) ≤ Int.tdiv ((total : Int) * pct.num) (100 * (pct.den : Int)) :=
    Int.tdiv_nonneg (mul_nonneg (Int.natCast_nonneg _) (Rat.num_nonneg.mpr h))
      (by positivity)
  by_cases hb : Int.tdiv ((total : Int) * pct.num) (100 * (pct.den : Int)) = 0 ∧
      0 < pct ∧ 0 < total
  · rw [if_pos hb]
    split <;> omega
  · rw [if_neg hb]
    split <;> omega

theorem num_errors_le (total : Nat) (pct : ℚ) :
    num_errors total pct ≤ (total : Int) := by
  simp only [num_errors]
  split <;> omega

/--
Claim C6 (amended): `injectErrors` performs **no validation** of
`errorPercentage` (percentages above 100 simply clamp the error count to
`len(S)`; the only failure mode is the `ValueError` from `random.sample`
when the computed count is negative, which needs a negative percentage).
For every non-negative percentage and every valid sample drawn by
`random.sample`, it flips exactly the sampled distinct positions and
returns `count = num_errors` = `int(len·pct/100)`, bumped to 1 when
`pct > 0`, the input is non-empty and the computed count is 0, and
clamped to `len(S)`; the count always lies in `[0, len(S)]`, and
`injectErrors(S, 0) = (S, 0)`.
-/
theorem inject_bit_errors_spec (bits : List Bool) (pct : ℚ) (sample : List Nat)
    (hp : 0 ≤ pct) (hs : ValidSample bits.length (num_errors bits.length pct) sample) :
    ∃ out, inject_bit_errors bits pct sample = .ok (out, num_errors bits.length pct) ∧
      out.length = bits.length ∧
      (∀ j, j < bits.length →
        out.getD j false = if j ∈ sample then !(bits.getD j false) else bits.getD j false) ∧
      0 ≤ num_errors bits.length pct ∧
      num_errors bits.length pct ≤ (bits.length : Int) ∧
      (pct = 0 → out = bits ∧ num_errors bits.length pct = 0) := by
  obtain ⟨hnd, hlen, hin⟩ := hs
  by_cases hz : pct = 0
  · subst hz
    refine ⟨bits, ?_, rfl, ?_, ?_, ?_, fun _ => ⟨rfl, num_errors_zero _⟩⟩
    · rw [inject_bit_errors, if_pos rfl, num_errors_zero]
    · intro j hj
      have : sample = [] := by
        rw [num_errors_zero] at hlen
        exact List.eq_nil_of_length_eq_zero (by omega)
      subst this
      simp
    · rw [num_errors_zero]
    · rw [num_errors_zero]
      omega
  · refine ⟨sample.foldl flipAt bits, ?_, foldl_flipAt_length sample bits, ?_,
      num_errors_nonneg _ _ hp, num_errors_le _ _, fun hcontra => absurd hcontra hz⟩
    · rw [inject_bit_errors, if_neg hz]
      rw [if_neg (by have := num_errors_nonneg bits.length pct hp; omega)]
    · exact foldl_flipAt_getD sample bits hnd hin

/--
Claim C6 (witness): a concrete instantiation, `S = "01"`, `pct = 50`,
sample `{1}`. -/
theorem inject_bit_errors_spec_witness :
    ∃ out, inject_bit_errors [false, true] 50 [1] = .ok (out, num_errors 2 50) ∧
      out.length = 2 ∧
      (∀ j, j < 2 →
        out.getD j false =
          if j ∈ [1] then !([false, true].getD j false) else [false, true].getD j false) ∧
      0 ≤ num_errors 2 50 ∧ num_errors 2 50 ≤ (2 : Int) ∧
      ((50 : ℚ) = 0 → out = [false, true] ∧ num_errors 2 50 = 0) :=
  inject_bit_errors_spec [false, true] 50 [1] (by norm_num)
    ⟨by decide, by decide, by decide⟩

/--
Claim C6 (counterexample): the claim says `injectErrors` fails whenever
`errorPercentage` is outside [0,100]; but the source has no such check:
at `S = "0"`, `pct = 150` (and the only sample `random.sample` can draw,
`{0}`) it succeeds, flipping the single bit with count clamped to 1.
-/
theorem inject_bit_errors_no_range_check :
    (100 : ℚ) < 150 ∧ inject_bit_errors [false] 150 [0] = .ok ([true], 1) :=
  ⟨by norm_num, by rfl⟩

/-! ## linear.py lemmas -/

theorem getD_eq_getElem {α : Type} (l : List α) (i : Nat) (d : α) (h : i < l.length) :
    l.getD i d = l[i] := by
  rw [List.getD_eq_getElem?_getD, List.getElem?_eq_getElem h]
  rfl

theorem getD_append_left {α : Type} (l1 l2 : List α) (j : Nat) (d : α) (h : j < l1.length) :
    (l1 ++ l2).getD j d = l1.getD j d := by
  rw [List.getD_eq_getElem?_getD, List.getElem?_append, if_pos h,
    ← List.getD_eq_getElem?_getD]

theorem getD_append_right {α : Type} (l1 l2 : List α) (j : Nat) (d : α) (h : l1.length ≤ j) :
    (l1 ++ l2).getD j d = l2.getD (j - l1.length) d := by
  rw [List.getD_eq_getElem?_getD, List.getElem?_append, if_neg (by omega),
    ← List.getD_eq_getElem?_getD]

/-- Inversion of a successful `LinearCodec.make`. -/
theorem make_ok (n k : Nat) (c : LinearCodec) (h : LinearCodec.make n k = .ok c) :
    k < n ∧ (generatePCols (n - k) k).length = k ∧ k ≠ 0 ∧
    c = { n := n, k := k,
          G_matrix := some (buildG k (generatePCols (n - k) k)),
          H_matrix := buildH (n - k) (generatePCols (n - k) k),
          syndrome_table :=
            buildSyndromeTable (buildH (n - k) (generatePCols (n - k) k)) n } := by
  simp only [LinearCodec.make] at h
  split at h
  · cases h
  · rename_i hkn
    split at h
    · cases h
    · rename_i hcond
      push_neg at hcond
      exact ⟨by omega, hcond.1, hcond.2, (Except.ok.inj h).symm⟩

/-- The column-collection loop is `take` of the filtered candidates, as
long as the accumulator is still short of `k`. -/
theorem generatePColsGo_eq (p k : Nat) (cands acc : List (List Nat)) (hk : acc.length < k) :
    generatePColsGo p k cands acc =
      acc ++ (cands.filter
        (fun c => !(List.range p).any (fun i => c == unitVec p i))).take (k - acc.length) := by
  induction cands generalizing acc with
  | nil => simp [generatePColsGo]
  | cons c rest ih =>
    rw [generatePColsGo]
    by_cases hu : (List.range p).any (fun i => c == unitVec p i)
    · rw [if_pos hu, ih acc hk, List.filter_cons, if_neg (by simp [hu])]
    · rw [if_neg hu]
      by_cases hfull : (acc ++ [c]).length = k
      · rw [if_pos hfull, List.filter_cons, if_pos (by simp [hu])]
        have h1 : k - acc.length = 1 := by
          rw [List.length_append] at hfull
          simp only [List.length_cons, List.length_nil] at hfull
          omega
        rw [h1]
        simp
      · rw [if_neg hfull, List.filter_cons, if_pos (by simp [hu])]
        have hlt : (acc ++ [c]).length < k := by
          rw [List.length_append]
          rw [List.length_append] at hfull
          simp only [List.length_cons, List.length_nil] at hfull ⊢
          omega
        rw [ih (acc ++ [c]) hlt, List.length_append]
        simp only [List.length_cons, List.length_nil]
        have hm : k - acc.length = (k - (acc.length + 1)) + 1 := by omega
        rw [hm, List.take_succ_cons]
        simp [List.append_assoc]

/-- For `k ≠ 0` the generated columns are the first `k` non-identity
candidate columns. -/
theorem generatePCols_eq (p k : Nat) (hk : k ≠ 0) :
    generatePCols p k =
      (((List.range (2 ^ p - 1)).map (fun t => natBits p (t + 1))).filter
        (fun c => !(List.range p).any (fun i => c == unitVec p i))).take k := by
  rw [generatePCols, generatePColsGo_eq p k _ [] (by simp; omega)]
  simp

theorem generatePCols_sublist (p k : Nat) (hk : k ≠ 0) :
    (generatePCols p k).Sublist ((List.range (2 ^ p - 1)).map (fun t => natBits p (t + 1))) := by
  rw [generatePCols_eq p k hk]
  exact (List.take_sublist _ _).trans (List.filter_sublist _)

theorem generatePCols_nodup (p k : Nat) (hk : k ≠ 0) :
    (generatePCols p k).Nodup := by
  apply (generatePCols_sublist p k hk).nodup
  apply List.Nodup.map_on _ (List.nodup_range _)
  intro x hx y hy hfxy
  have hx2 : x + 1 < 2 ^ p := by
    have := List.mem_range.mp hx
    have hpow : 1 ≤ 2 ^ p := Nat.one_le_two_pow
    omega
  have hy2 : y + 1 < 2 ^ p := by
    have := List.mem_range.mp hy
    have hpow : 1 ≤ 2 ^ p := Nat.one_le_two_pow
    omega
  have := congrArg fromBits hfxy
  rw [fromBits_natBits, fromBits_natBits, Nat.mod_eq_of_lt hx2, Nat.mod_eq_of_lt hy2] at this
  omega

/-- Every generated column is a non-identity, nonzero `p`-bit column. -/
theorem generatePCols_mem (p k : Nat) (hk : k ≠ 0) (cb : List Nat)
    (hmem : cb ∈ generatePCols p k) :
    cb.length = p ∧ (∀ x ∈ cb, x < 2) ∧ (∃ x ∈ cb, x ≠ 0) ∧
      (List.range p).any (fun i => cb == unitVec p i) = false := by
  rw [generatePCols_eq p k hk] at hmem
  have hmem2 := (List.take_sublist _ _).mem hmem
  rcases List.mem_filter.mp hmem2 with ⟨hmem3, hpred⟩
  rcases List.mem_map.mp hmem3 with ⟨t, ht, rfl⟩
  have ht2 : t + 1 < 2 ^ p := by
    have := List.mem_range.mp ht
    have hpow : 1 ≤ 2 ^ p := Nat.one_le_two_pow
    omega
  refine ⟨natBits_length p (t + 1), natBits_mem_lt_two p (t + 1), ?_, by simpa using hpred⟩
  by_contra hall
  push_neg at hall
  have hzero : fromBits (natBits p (t + 1)) = 0 :=
    (fromBits_eq_zero_iff _).mpr hall
  rw [fromBits_natBits, Nat.mod_eq_of_lt ht2] at hzero
  omega

theorem getD_lt_two (c : List Nat) (hc : ∀ x ∈ c, x < 2) (r : Nat) : c.getD r 0 < 2 := by
  rcases Nat.lt_or_ge r c.length with hr | hr
  · rw [getD_eq_getElem c r 0 hr]
    exact hc _ (List.getElem_mem hr)
  · rw [List.getD_eq_getElem?_getD, List.getElem?_eq_none hr]
    simp

theorem map_getD_zero (pcols : List (List Nat)) (j r : Nat) :
    (pcols.map (fun c => c.getD r 0)).getD j 0 = (pcols.getD j []).getD r 0 :=
  getD_map (fun c => c.getD r 0) pcols j []

theorem map_eq_range_map {α β : Type} (l : List α) (d : α) (f : α → β) :
    l.map f = (List.range l.length).map (fun i => f (l.getD i d)) := by
  conv_lhs => rw [← range_map_getD l d l.length rfl]
  rw [List.map_map]
  rfl

theorem buildH_length (p : Nat) (pcols : List (List Nat)) : (buildH p pcols).length = p := by
  simp [buildH]

theorem buildH_row (p : Nat) (pcols : List (List Nat)) (r : Nat) (hr : r < p) :
    (buildH p pcols).getD r [] = pcols.map (fun c => c.getD r 0) ++ unitVec p r :=
  getD_range_map _ p r [] hr

theorem buildG_length (k : Nat) (pcols : List (List Nat)) : (buildG k pcols).length = k := by
  simp [buildG]

theorem buildG_row (k : Nat) (pcols : List (List Nat)) (i : Nat) (hi : i < k) :
    (buildG k pcols).getD i [] = unitVec k i ++ pcols.getD i [] :=
  getD_range_map _ k i [] hi

theorem mem_getD (pcols : List (List Nat)) (t : Nat) (ht : t < pcols.length) :
    pcols.getD t [] ∈ pcols := by
  rw [getD_eq_getElem _ _ _ ht]
  exact List.getElem_mem ht

theorem col_buildH_left (p k : Nat) (pcols : List (List Nat)) (hlen : pcols.length = k)
    (hall : ∀ c ∈ pcols, c.length = p) (j : Nat) (hj : j < k) :
    col (buildH p pcols) j = pcols.getD j [] := by
  rw [col, buildH, List.map_map]
  have hstep : ∀ r ∈ List.range p,
      ((fun row => row.getD j 0) ∘ fun r => pcols.map (fun c => c.getD r 0) ++ unitVec p r) r =
        (pcols.getD j []).getD r 0 := by
    intro r _
    simp only [Function.comp_apply]
    rw [getD_append_left _ _ _ _ (by rw [List.length_map, hlen]; exact hj), map_getD_zero]
  rw [List.map_congr_left hstep]
  exact range_map_getD _ 0 p (hall _ (mem_getD pcols j (by omega)))

theorem col_buildH_right (p k : Nat) (pcols : List (List Nat)) (hlen : pcols.length = k)
    (j : Nat) (hj1 : k ≤ j) (hj2 : j < k + p) :
    col (buildH p pcols) j = unitVec p (j - k) := by
  rw [col, buildH, List.map_map]
  have hstep : ∀ r ∈ List.range p,
      ((fun row => row.getD j 0) ∘ fun r => pcols.map (fun c => c.getD r 0) ++ unitVec p r) r =
        if r = j - k then 1 else 0 := by
    intro r _
    simp only [Function.comp_apply]
    rw [getD_append_right _ _ _ _ (by rw [List.length_map, hlen]; exact hj1),
      List.length_map, hlen, unitVec_getD p r (j - k) (by omega)]
    simp [eq_comm]
  rw [List.map_congr_left hstep]
  rfl

theorem col_buildG_left (k : Nat) (pcols : List (List Nat)) (j : Nat) (hj : j < k) :
    col (buildG k pcols) j = unitVec k j := by
  rw [col, buildG, List.map_map]
  have hstep : ∀ i ∈ List.range k,
      ((fun row => row.getD j 0) ∘ fun i => unitVec k i ++ pcols.getD i []) i =
        if i = j then 1 else 0 := by
    intro i _
    simp only [Function.comp_apply]
    rw [getD_append_left _ _ _ _ (by rw [unitVec_length]; exact hj),
      unitVec_getD k i j hj]
    simp [eq_comm]
  rw [List.map_congr_left hstep]
  rfl

theorem col_buildG_right (k : Nat) (pcols : List (List Nat)) (j : Nat) (hj : k ≤ j) :
    col (buildG k pcols) j = (List.range k).map (fun i => (pcols.getD i []).getD (j - k) 0) := by
  rw [col, buildG, List.map_map]
  apply List.map_congr_left
  intro i _
  simp only [Function.comp_apply]
  rw [getD_append_right _ _ _ _ (by rw [unitVec_length]; exact hj), unitVec_length]

/-- The key GF(2) fact behind `H · Gᵀ ≡ 0`: each entry of `H · Gᵀ` is the
same P-matrix bit counted twice. -/
theorem dot_H_row_G_row (p k : Nat) (pcols : List (List Nat)) (hlen : pcols.length = k)
    (hall : ∀ c ∈ pcols, c.length = p) (i t : Nat) (hi : i < p) (ht : t < k) :
    dot ((buildH p pcols).getD i []) ((buildG k pcols).getD t []) =
      2 * (pcols.getD t []).getD i 0 := by
  have htmem : pcols.getD t [] ∈ pcols := mem_getD pcols t (by omega)
  rw [buildH_row p pcols i hi, buildG_row k pcols t ht,
    dot_append _ _ _ _ (by rw [List.length_map, unitVec_length, hlen]),
    dot_unitVec _ _ _ (by rw [List.length_map, hlen]) ht, map_getD_zero,
    dot_comm (unitVec p i), dot_unitVec _ _ _ (hall _ htmem) hi]
  ring

/--
Claim C8: for every successfully constructed `LinearCodec(n, k)`, the
generated matrices satisfy `H · Gᵀ ≡ 0 (mod 2)`: every entry of the
product of `H` with a row of `G` (a basis codeword) vanishes mod 2.
-/
theorem H_G_orthogonal (n k : Nat) (c : LinearCodec) (h : LinearCodec.make n k = .ok c)
    (G : List (List Nat)) (hG : c.G_matrix = some G) (i t : Nat)
    (hi : i < c.H_matrix.length) (ht : t < G.length) :
    dot (c.H_matrix.getD i []) (G.getD t []) % 2 = 0 := by
  obtain ⟨hkn, hplen, hk0, hc⟩ := make_ok n k c h
  subst hc
  simp only at hG hi ht ⊢
  have hG2 : G = buildG k (generatePCols (n - k) k) := by
    injection hG.symm
  subst hG2
  rw [buildH_length] at hi
  rw [buildG_length] at ht
  rw [dot_H_row_G_row (n - k) k _ hplen
    (fun cb hcb => (generatePCols_mem (n - k) k hk0 cb hcb).1) i t hi ht]
  exact Nat.mul_mod_right 2 _

/--
Claim C8 (witness): the `(7,4)` code instance, entry `(0,0)` of `H · Gᵀ`.
-/
theorem H_G_orthogonal_witness :
    dot (codec74.H_matrix.getD 0 []) ((codec74.G_matrix.getD []).getD 0 []) % 2 = 0 :=
  H_G_orthogonal 7 4 codec74 rfl (codec74.G_matrix.getD []) rfl 0 0
    (by decide) (by decide)

theorem unitVec_mem_lt_two (m t : Nat) : ∀ x ∈ unitVec m t, x < 2 := by
  intro x hx
  rcases List.mem_map.mp hx with ⟨j, _, rfl⟩
  split <;> omega

theorem assoc_append_none (key : List Nat) (l1 l2 : List (List Nat × Nat))
    (h : assoc key l1 = none) : assoc key (l1 ++ l2) = assoc key l2 := by
  induction l1 with
  | nil => simp
  | cons kv rest ih =>
    rw [assoc] at h
    rw [List.cons_append, assoc]
    by_cases hk : key = kv.1
    · rw [if_pos hk] at h
      cases h
    · rw [if_neg hk] at h
      rw [if_neg hk]
      exact ih h

theorem assoc_append_some (key : List Nat) (l1 l2 : List (List Nat × Nat)) (v : Nat)
    (h : assoc key l1 = some v) : assoc key (l1 ++ l2) = some v := by
  induction l1 with
  | nil => cases h
  | cons kv rest ih =>
    rw [assoc] at h
    rw [List.cons_append, assoc]
    by_cases hk : key = kv.1
    · rw [if_pos hk] at h
      rw [if_pos hk]
      exact h
    · rw [if_neg hk] at h
      rw [if_neg hk]
      exact ih h

theorem assoc_range_map_none (f : Nat → List Nat) (key : List Nat) (m : Nat)
    (h : ∀ i, i < m → f i ≠ key) :
    assoc key ((List.range m).map (fun i => (f i, i))) = none := by
  induction m with
  | zero => simp [assoc]
  | succ m ih =>
    rw [List.range_succ, List.map_append,
      assoc_append_none _ _ _ (ih (fun i hi => h i (by omega)))]
    simp only [List.map_cons, List.map_nil, assoc]
    rw [if_neg (fun hc => h m (by omega) hc.symm)]

theorem assoc_range_map_some (f : Nat → List Nat) (m j : Nat) (hj : j < m)
    (hinj : ∀ i, i < m → f i = f j → i = j) :
    assoc (f j) ((List.range m).map (fun i => (f i, i))) = some j := by
  induction m with
  | zero => omega
  | succ m ih =>
    rw [List.range_succ, List.map_append]
    by_cases hjm : j = m
    · subst hjm
      rw [assoc_append_none _ _ _ (assoc_range_map_none f (f j) j
        (fun i hi hc => absurd (hinj i (by omega) hc) (by omega)))]
      simp [assoc]
    · have hjm2 : j < m := by omega
      exact assoc_append_some _ _ _ j (ih hjm2 (fun i hi hc => hinj i (by omega) hc))

theorem syndromeAt_eq_col (H : List (List Nat)) (n pos : Nat) (hpos : pos < n)
    (hrows : ∀ row ∈ H, row.length = n) (hbits : ∀ row ∈ H, ∀ x ∈ row, x < 2) :
    syndromeAt H n pos = col H pos := by
  rw [syndromeAt, matVecMod2, col]
  apply List.map_congr_left
  intro row hrow
  rw [dot_unitVec row n pos (hrows row hrow) hpos]
  exact Nat.mod_eq_of_lt (getD_lt_two row (hbits row hrow) pos)

/-- With pairwise distinct nonzero columns, the syndrome table is exactly
column ↦ position for every position. -/
theorem buildSyndromeTable_eq (H : List (List Nat)) (n : Nat)
    (hrows : ∀ row ∈ H, row.length = n) (hbits : ∀ row ∈ H, ∀ x ∈ row, x < 2)
    (hnz : ∀ j, j < n → ∃ x ∈ col H j, x ≠ 0)
    (hinj : ∀ i, i < n → ∀ j, j < n → col H i = col H j → i = j) :
    buildSyndromeTable H n = (List.range n).map (fun pos => (col H pos, pos)) := by
  have main : ∀ m, m ≤ n →
      (List.range m).foldl (fun tbl pos =>
        let s := syndromeAt H n pos
        if s.any (fun b => b ≠ 0) ∧ assoc s tbl = none then tbl ++ [(s, pos)] else tbl) [] =
      (List.range m).map (fun pos => (col H pos, pos)) := by
    intro m
    induction m with
    | zero => simp
    | succ m ih =>
      intro hm
      rw [List.range_succ, List.foldl_append, List.map_append, ih (by omega)]
      simp only [List.foldl_cons, List.foldl_nil]
      rw [syndromeAt_eq_col H n m (by omega) hrows hbits]
      have hany : (col H m).any (fun b => b ≠ 0) = true := by
        rcases hnz m (by omega) with ⟨x, hx, hxne⟩
        rw [List.any_eq_true]
        exact ⟨x, hx, by simpa using hxne⟩
      have hnone : assoc (col H m) ((List.range m).map (fun pos => (col H pos, pos))) = none :=
        assoc_range_map_none (col H) (col H m) m
          (fun i hi hc => absurd (hinj i (by omega) m (by omega) hc) (by omega))
      rw [if_pos ⟨hany, hnone⟩]
      simp
  exact main n le_rfl

/-- Rows of `H` have length `k + p`. -/
theorem buildH_rows_length (p k : Nat) (pcols : List (List Nat)) (hlen : pcols.length = k) :
    ∀ row ∈ buildH p pcols, row.length = k + p := by
  intro row hrow
  rcases List.mem_map.mp hrow with ⟨r, _, rfl⟩
  rw [List.length_append, List.length_map, unitVec_length, hlen]

/-- Entries of `H` are bits. -/
theorem buildH_rows_bits (p k : Nat) (pcols : List (List Nat))
    (hall : ∀ c ∈ pcols, ∀ x ∈ c, x < 2) :
    ∀ row ∈ buildH p pcols, ∀ x ∈ row, x < 2 := by
  intro row hrow x hx
  rcases List.mem_map.mp hrow with ⟨r, _, rfl⟩
  rcases List.mem_append.mp hx with hx | hx
  · rcases List.mem_map.mp hx with ⟨cb, hcb, rfl⟩
    exact getD_lt_two cb (hall cb hcb) r
  · exact unitVec_mem_lt_two p r x hx

/-- Columns of the constructed `H` are pairwise distinct. -/
theorem col_buildH_inj (p k : Nat) (hk : k ≠ 0) (hlen : (generatePCols p k).length = k) :
    ∀ i, i < k + p → ∀ j, j < k + p →
      col (buildH p (generatePCols p k)) i = col (buildH p (generatePCols p k)) j → i = j := by
  set pcols := generatePCols p k with hpc
  have hall : ∀ cb ∈ pcols, cb.length = p := fun cb hcb => (generatePCols_mem p k hk cb hcb).1
  have hnodup : pcols.Nodup := generatePCols_nodup p k hk
  have hP_not_unit : ∀ cb ∈ pcols, ∀ t, t < p → cb ≠ unitVec p t := by
    intro cb hcb t ht hcontra
    have hany := (generatePCols_mem p k hk cb hcb).2.2.2
    rw [List.any_eq_false] at hany
    have := hany t (List.mem_range.mpr ht)
    simp [hcontra] at this
  intro i hi j hj hcol
  rcases Nat.lt_or_ge i k with hik | hik <;> rcases Nat.lt_or_ge j k with hjk | hjk
  · rw [col_buildH_left p k pcols hlen hall i hik,
      col_buildH_left p k pcols hlen hall j hjk] at hcol
    by_contra hne
    rw [getD_eq_getElem _ _ _ (by omega), getD_eq_getElem _ _ _ (by omega)] at hcol
    exact hne (hnodup.getElem_inj_iff.mp hcol)
  · exfalso
    rw [col_buildH_left p k pcols hlen hall i hik,
      col_buildH_right p k pcols hlen j hjk hj] at hcol
    exact hP_not_unit _ (mem_getD pcols i (by omega)) (j - k) (by omega) hcol
  · exfalso
    rw [col_buildH_right p k pcols hlen i hik hi,
      col_buildH_left p k pcols hlen hall j hjk] at hcol
    exact hP_not_unit _ (mem_getD pcols j (by omega)) (i - k) (by omega) hcol.symm
  · rw [col_buildH_right p k pcols hlen i hik hi,
      col_buildH_right p k pcols hlen j hjk hj] at hcol
    have := unitVec_inj p (i - k) (j - k) (by omega) (by omega) hcol
    omega

/-- Columns of the constructed `H` are nonzero. -/
theorem col_buildH_nonzero (p k : Nat) (hk : k ≠ 0) (hlen : (generatePCols p k).length = k) :
    ∀ j, j < k + p → ∃ x ∈ col (buildH p (generatePCols p k)) j, x ≠ 0 := by
  set pcols := generatePCols p k with hpc
  have hall : ∀ cb ∈ pcols, cb.length = p := fun cb hcb => (generatePCols_mem p k hk cb hcb).1
  intro j hj
  rcases Nat.lt_or_ge j k with hjk | hjk
  · rw [col_buildH_left p k pcols hlen hall j hjk]
    exact (generatePCols_mem p k hk _ (mem_getD pcols j (by omega))).2.2.1
  · rw [col_buildH_right p k pcols hlen j hjk hj]
    exact ⟨1, List.mem_map.mpr ⟨j - k, List.mem_range.mpr (by omega), by simp⟩, one_ne_zero⟩

/-- On a constructed codec the syndrome table recovers every position
from the corresponding column of `H`. -/
theorem table_lookup (n k : Nat) (c : LinearCodec) (h : LinearCodec.make n k = .ok c)
    (j : Nat) (hj : j < n) :
    assoc (col c.H_matrix j) c.syndrome_table = some j := by
  obtain ⟨hkn, hplen, hk0, hc⟩ := make_ok n k c h
  subst hc
  simp only
  have hn : k + (n - k) = n := by omega
  have hrows := buildH_rows_length (n - k) k (generatePCols (n - k) k) hplen
  rw [hn] at hrows
  have hbits := buildH_rows_bits (n - k) k (generatePCols (n - k) k)
    (fun cb hcb => (generatePCols_mem (n - k) k hk0 cb hcb).2.1)
  have hnz := col_buildH_nonzero (n - k) k hk0 hplen
  rw [hn] at hnz
  have hinj := col_buildH_inj (n - k) k hk0 hplen
  rw [hn] at hinj
  rw [buildSyndromeTable_eq _ n hrows hbits hnz hinj]
  exact assoc_range_map_some (col (buildH (n - k) (generatePCols (n - k) k))) n j hj
    (fun i hi hc2 => hinj i hi j hj hc2)

theorem headD_buildG_length (p k : Nat) (pcols : List (List Nat)) (hk : k ≠ 0)
    (hall : ∀ c ∈ pcols, c.length = p) (hlen : pcols.length = k) :
    ((buildG k pcols).headD []).length = k + p := by
  cases k with
  | zero => omega
  | succ m =>
    rw [buildG, List.range_succ_eq_map]
    simp only [List.map_cons, List.headD_cons]
    rw [List.length_append, unitVec_length]
    have := hall _ (mem_getD pcols 0 (by omega))
    omega

theorem col_getD (M : List (List Nat)) (j t : Nat) :
    (col M j).getD t 0 = (M.getD t []).getD j 0 := by
  rw [col]
  exact getD_map (fun row => row.getD j 0) M t []

theorem col_length (M : List (List Nat)) (j : Nat) : (col M j).length = M.length := by
  simp [col]

theorem vecMat_mem_lt_two (v : List Nat) (M : List (List Nat)) :
    ∀ x ∈ vecMatMod2 v M, x < 2 := by
  intro x hx
  rcases List.mem_map.mp hx with ⟨j, _, rfl⟩
  exact Nat.mod_lt _ (by omega)

theorem vecMat_getD (v : List Nat) (M : List (List Nat)) (j : Nat)
    (hj : j < (M.headD []).length) :
    (vecMatMod2 v M).getD j 0 = dot v (col M j) % 2 :=
  getD_range_map _ _ _ _ hj

theorem vecMat_length (v : List Nat) (M : List (List Nat)) :
    (vecMatMod2 v M).length = (M.headD []).length := by
  simp [vecMatMod2]

/-- The first `k` entries of a codeword are the message bits. -/
theorem vecMat_take (p k : Nat) (hk : k ≠ 0) (hlen : (generatePCols p k).length = k)
    (M : List Bool) (hM : M.length = k) :
    (vecMatMod2 (toVec M) (buildG k (generatePCols p k))).take k = toVec M := by
  set pcols := generatePCols p k with hpc
  have hall : ∀ cb ∈ pcols, cb.length = p := fun cb hcb => (generatePCols_mem p k hk cb hcb).1
  rw [vecMatMod2, headD_buildG_length p k pcols hk hall hlen, ← List.map_take,
    List.take_range, min_eq_left (Nat.le_add_right k p)]
  have hstep : ∀ j ∈ List.range k,
      dot (toVec M) (col (buildG k pcols) j) % 2 = (toVec M).getD j 0 := by
    intro j hj
    have hjk := List.mem_range.mp hj
    rw [col_buildG_left k pcols j hjk,
      dot_unitVec (toVec M) k j (by rw [toVec_length, hM]) hjk]
    exact Nat.mod_eq_of_lt (getD_lt_two _ (toVec_mem_lt_two M) j)
  rw [List.map_congr_left hstep]
  exact range_map_getD _ 0 k (by rw [toVec_length, hM])

/-- Casting a dot product of length-`n` vectors into `ZMod 2`. -/
theorem dot_cast_zmod (a b : List Nat) (n : Nat) (ha : a.length = n) (hb : b.length = n) :
    ((dot a b : Nat) : ZMod 2) =
      ∑ j ∈ Finset.range n, (a.getD j 0 : ZMod 2) * (b.getD j 0 : ZMod 2) := by
  rw [dot_sum a b n ha hb]
  push_cast
  rfl

/-- Every codeword has zero syndrome: row · codeword ≡ 0 (mod 2). -/
theorem syndrome_zero (p k : Nat) (hk : k ≠ 0) (hlen : (generatePCols p k).length = k)
    (M : List Bool) (hM : M.length = k) :
    ∀ row ∈ buildH p (generatePCols p k),
      dot row (vecMatMod2 (toVec M) (buildG k (generatePCols p k))) % 2 = 0 := by
  set pcols := generatePCols p k with hpc
  have hall : ∀ cb ∈ pcols, cb.length = p := fun cb hcb => (generatePCols_mem p k hk cb hcb).1
  set G := buildG k pcols with hG
  set w := vecMatMod2 (toVec M) G with hw
  have hwlen : w.length = k + p := by
    rw [hw, vecMat_length, headD_buildG_length p k pcols hk hall hlen]
  have hGheadD : (G.headD []).length = k + p := headD_buildG_length p k pcols hk hall hlen
  have hGrow_len : ∀ t, t < k → (G.getD t []).length = k + p := by
    intro t ht
    rw [hG, buildG_row k pcols t ht, List.length_append, unitVec_length,
      hall _ (mem_getD pcols t (by omega))]
  intro row hrow
  obtain ⟨r, hr, rfl⟩ : ∃ r, r < p ∧ row = (buildH p pcols).getD r [] := by
    rcases List.mem_map.mp hrow with ⟨r, hr2, rfl⟩
    exact ⟨r, List.mem_range.mp hr2, (buildH_row p pcols r (List.mem_range.mp hr2)).symm⟩
  set Hrow := (buildH p pcols).getD r [] with hHrow
  have hHrow_len : Hrow.length = k + p := by
    rw [hHrow, buildH_row p pcols r hr, List.length_append, List.length_map,
      unitVec_length, hlen]
  have hcast : ((dot Hrow w : Nat) : ZMod 2) = 0 := by
    rw [dot_cast_zmod Hrow w (k + p) hHrow_len hwlen]
    have hw_entry : ∀ j ∈ Finset.range (k + p),
        (Hrow.getD j 0 : ZMod 2) * (w.getD j 0 : ZMod 2) =
          (Hrow.getD j 0 : ZMod 2) * ((dot (toVec M) (col G j) : Nat) : ZMod 2) := by
      intro j hj
      rw [hw, vecMat_getD _ _ j (by rw [hGheadD]; exact Finset.mem_range.mp hj),
        ZMod.natCast_mod]
    rw [Finset.sum_congr rfl hw_entry]
    have hdot_entry : ∀ j ∈ Finset.range (k + p),
        (Hrow.getD j 0 : ZMod 2) * ((dot (toVec M) (col G j) : Nat) : ZMod 2) =
          ∑ t ∈ Finset.range k, ((toVec M).getD t 0 : ZMod 2) *
            ((Hrow.getD j 0 : ZMod 2) * ((G.getD t []).getD j 0 : ZMod 2)) := by
      intro j hj
      rw [dot_cast_zmod (toVec M) (col G j) k (by rw [toVec_length, hM])
        (by rw [col_length, hG, buildG_length])]
      rw [Finset.mul_sum]
      apply Finset.sum_congr rfl
      intro t ht
      rw [col_getD]
      ring
    rw [Finset.sum_congr rfl hdot_entry, Finset.sum_comm]
    have hinner : ∀ t ∈ Finset.range k,
        (∑ j ∈ Finset.range (k + p), ((toVec M).getD t 0 : ZMod 2) *
          ((Hrow.getD j 0 : ZMod 2) * ((G.getD t []).getD j 0 : ZMod 2))) = 0 := by
      intro t ht
      have htk := Finset.mem_range.mp ht
      rw [← Finset.mul_sum]
      have : (∑ j ∈ Finset.range (k + p),
          (Hrow.getD j 0 : ZMod 2) * ((G.getD t []).getD j 0 : ZMod 2)) =
          ((dot Hrow (G.getD t []) : Nat) : ZMod 2) :=
        (dot_cast_zmod Hrow (G.getD t []) (k + p) hHrow_len (hGrow_len t htk)).symm
      rw [this, hHrow, hG, dot_H_row_G_row p k pcols hlen hall r t hr htk]
      push_cast
      have h2 : (2 : ZMod 2) = 0 := by decide
      simp [h2]
    rw [Finset.sum_congr rfl hinner, Finset.sum_const_zero]
  rw [← Nat.dvd_iff_mod_eq_zero]
  exact (ZMod.natCast_zmod_eq_zero_iff_dvd _ 2).mp hcast

theorem ofVec_getD (w : List Nat) (j : Nat) :
    (ofVec w).getD j false = (w.getD j 0 == 1) := by
  rw [ofVec]
  exact getD_map (fun x => x == 1) w j 0

theorem getD_set_self_val (w : List Nat) (j x : Nat) (hj : j < w.length) :
    (w.set j x).getD j 0 = x := by
  rw [List.getD_eq_getElem?_getD, List.getElem?_set_self hj]
  rfl

/-- The parity bookkeeping for a single flipped position. -/
theorem flip_parity (D2 D hv wj xx : Nat) (heq : D2 + hv * wj = D + hv * xx)
    (hD : D % 2 = 0) (hhv : hv < 2) (hxx : xx < 2) (hxw : xx + wj = 1) :
    D2 % 2 = hv := by
  interval_cases hv <;> interval_cases xx <;> omega

/--
Claim C1: for every `LinearCodec(n, k)` whose construction succeeds and
every `k`-bit message `M`: `decode (encode M) = (M, 0)`, and for every
position `j < n`, decoding `encode M` with exactly bit `j` flipped
returns `(M, 1)`.
-/
theorem linear_roundtrip_single_flip (n k : Nat) (c : LinearCodec)
    (h : LinearCodec.make n k = .ok c) (M : List Bool) (hM : M.length = k)
    (j : Nat) (hj : j < n) :
    c.encode M = .ok (codewordOf c M) ∧
    c.decode (codewordOf c M) = .ok (M, 0) ∧
    c.decode (flipBit (codewordOf c M) j) = .ok (M, 1) := by
  obtain ⟨hkn, hplen, hk0, hc⟩ := make_ok n k c h
  rw [hc] at h ⊢
  clear hc c
  set p := n - k with hp
  set pcols := generatePCols p k with hpc
  set G := buildG k pcols with hGdef
  set H := buildH p pcols with hHdef
  have hn : k + p = n := by omega
  have hall : ∀ cb ∈ pcols, cb.length = p :=
    fun cb hcb => (generatePCols_mem p k hk0 cb hcb).1
  have hbitsH : ∀ row ∈ H, ∀ x ∈ row, x < 2 :=
    buildH_rows_bits p k pcols (fun cb hcb => (generatePCols_mem p k hk0 cb hcb).2.1)
  have hrowsH : ∀ row ∈ H, row.length = n := by
    intro row hrow
    rw [← hn]
    exact buildH_rows_length p k pcols hplen row hrow
  set mv := toVec M with hmv
  set w := vecMatMod2 mv G with hwdef
  have hwlen : w.length = n := by
    rw [hwdef, vecMat_length, hGdef, headD_buildG_length p k pcols hk0 hall hplen, hn]
  have hwbits : ∀ x ∈ w, x < 2 := vecMat_mem_lt_two mv G
  have hcw : codewordOf
      { n := n, k := k, G_matrix := some G, H_matrix := H,
        syndrome_table := buildSyndromeTable H n } M = ofVec w := rfl
  rw [hcw]
  have hsynd0 : ∀ row ∈ H, dot row w % 2 = 0 := by
    rw [hHdef, hwdef, hGdef, hmv]
    exact syndrome_zero p k hk0 hplen M hM
  have hencode : LinearCodec.encode
      { n := n, k := k, G_matrix := some G, H_matrix := H,
        syndrome_table := buildSyndromeTable H n } M = .ok (ofVec w) := by
    simp only [LinearCodec.encode]
    rw [if_neg (by rw [hM]; exact fun hcontra => hcontra rfl)]
  have htake : w.take k = mv := by
    rw [hwdef, hmv, hGdef, hpc]
    exact vecMat_take p k hk0 hplen M hM
  have hdecode0 : LinearCodec.decode
      { n := n, k := k, G_matrix := some G, H_matrix := H,
        syndrome_table := buildSyndromeTable H n } (ofVec w) = .ok (M, 0) := by
    simp only [LinearCodec.decode]
    rw [if_neg (by rw [ofVec_length, hwlen]; exact fun hcontra => hcontra rfl)]
    rw [toVec_ofVec w hwbits]
    have hany : (matVecMod2 H w).any (fun b => b ≠ 0) = false := by
      rw [List.any_eq_false]
      intro x hx
      rcases List.mem_map.mp hx with ⟨row, hrow, rfl⟩
      simp [hsynd0 row hrow]
    simp only [hany, Bool.false_eq_true, if_false]
    rw [htake, hmv, ofVec_toVec]
  refine ⟨hencode, hdecode0, ?_⟩
  -- single flip
  set x := bitVal (!((ofVec w).getD j false)) with hxdef
  have hx2 : x < 2 := bitVal_lt_two _
  have hwj2 : w.getD j 0 < 2 := getD_lt_two w hwbits j
  have hxw : x + w.getD j 0 = 1 := by
    rw [hxdef, ofVec_getD]
    rcases (by omega : w.getD j 0 = 0 ∨ w.getD j 0 = 1) with h0 | h0 <;>
      rw [h0] <;> simp [bitVal]
  have hflip : toVec (flipBit (ofVec w) j) = w.set j x := by
    rw [flipBit, toVec, List.map_set, ← toVec, toVec_ofVec w hwbits, hxdef]
  have hfliplen : (flipBit (ofVec w) j).length = n := by
    rw [flipBit, List.length_set, ofVec_length, hwlen]
  have hsynd1 : matVecMod2 H (w.set j x) = col H j := by
    rw [matVecMod2, col]
    apply List.map_congr_left
    intro row hrow
    have hds := dot_set row w j x (by omega)
    have hD0 := hsynd0 row hrow
    have hh2 : row.getD j 0 < 2 := getD_lt_two row (hbitsH row hrow) j
    exact flip_parity _ _ _ _ _ hds hD0 hh2 hx2 hxw
  have hnz : ∃ y ∈ col H j, y ≠ 0 := by
    rw [hHdef, hpc]
    exact col_buildH_nonzero p k hk0 hplen j (by omega)
  have hlookup : assoc (col H j) (buildSyndromeTable H n) = some j := by
    have := table_lookup n k _ h j hj
    simpa using this
  simp only [LinearCodec.decode]
  rw [if_neg (by rw [hfliplen]; exact fun hcontra => hcontra rfl)]
  rw [hflip, hsynd1]
  have hany1 : (col H j).any (fun b => b ≠ 0) = true := by
    rw [List.any_eq_true]
    rcases hnz with ⟨y, hy, hyne⟩
    exact ⟨y, hy, by simpa using hyne⟩
  simp only [hany1, if_true, hlookup]
  have hgetset : (w.set j x).getD j 0 = x := getD_set_self_val w j x (by omega)
  rw [hgetset]
  have hxor : x ^^^ 1 = w.getD j 0 := by
    rcases (by omega : x = 0 ∧ w.getD j 0 = 1 ∨ x = 1 ∧ w.getD j 0 = 0) with
      ⟨h1, h2⟩ | ⟨h1, h2⟩ <;> rw [h1, h2] <;> rfl
  rw [List.set_set, hxor, set_getD_self w j (by omega), htake, hmv, ofVec_toVec]

/--
Claim C1 (witness): the `(7,4)` instance, message `1011`, flip at
position 2.
-/
theorem linear_roundtrip_single_flip_witness :
    codec74.encode [true, false, true, true] =
      .ok (codewordOf codec74 [true, false, true, true]) ∧
    codec74.decode (codewordOf codec74 [true, false, true, true]) =
      .ok ([true, false, true, true], 0) ∧
    codec74.decode (flipBit (codewordOf codec74 [true, false, true, true]) 2) =
      .ok ([true, false, true, true], 1) :=
  linear_roundtrip_single_flip 7 4 codec74 rfl [true, false, true, true] rfl 2 (by omega)

/--
Claim C4 (code bug): the spec promises that every construction with
`1 ≤ k < n` succeeds, but at `(n, k) = (3, 2)` the candidate walk keeps
no P-column (every nonzero 1-bit vector is a unit vector), and
`_initialize_matrices` dies in a numpy `hstack` dimension-mismatch
`ValueError` — an undocumented low-level fault on a documented-valid
input.
-/
theorem make_faults_on_valid_input :
    1 ≤ 2 ∧ 2 < 3 ∧ LinearCodec.make 3 2 = .error .shapeFault :=
  ⟨by omega, by omega, rfl⟩

/--
Claim C9: an independent instance rebuilt via
`from_parameters (get_parameters c)` decodes every received word (in
particular every word with at most one flipped bit) to the same result
as the original instance: the rebuild succeeds and its `decode` agrees
with the original's on all inputs.
-/
theorem from_parameters_decode_eq (n k : Nat) (c : LinearCodec)
    (h : LinearCodec.make n k = .ok c) (received : List Bool) :
    ∃ c2, LinearCodec.from_parameters c.get_parameters = .ok c2 ∧
      c2.decode received = c.decode received := by
  obtain ⟨hkn, hplen, hk0, hc⟩ := make_ok n k c h
  rw [hc] at h ⊢
  clear hc c
  refine ⟨{ n := n, k := k, G_matrix := none,
            H_matrix := buildH (n - k) (generatePCols (n - k) k),
            syndrome_table :=
              buildSyndromeTable (buildH (n - k) (generatePCols (n - k) k)) n }, ?_, ?_⟩
  · simp only [LinearCodec.from_parameters, LinearCodec.get_parameters]
    rw [h]
    rfl
  · rfl

/--
Claim C9 (witness): the `(7,4)` instance and one concrete received word.
-/
theorem from_parameters_decode_eq_witness :
    ∃ c2, LinearCodec.from_parameters codec74.get_parameters = .ok c2 ∧
      c2.decode [true, true, false, false, true, false, true] =
        codec74.decode [true, true, false, false, true, false, true] :=
  from_parameters_decode_eq 7 4 codec74 rfl [true, true, false, false, true, false, true]

/--
Claim C10: on every instance built via `from_parameters`, `encode`
always raises `RuntimeError` (the generator matrix is set to `None` on
the receiver side, and `encode` checks it before anything else), for any
message whatsoever.
-/
theorem from_parameters_encode_raises (n k : Nat) (c : LinearCodec)
    (h : LinearCodec.make n k = .ok c) (c2 : LinearCodec)
    (h2 : LinearCodec.from_parameters c.get_parameters = .ok c2) (msg : List Bool) :
    c2.encode msg = .error .runtimeFault := by
  obtain ⟨hkn, hplen, hk0, hc⟩ := make_ok n k c h
  rw [hc] at h h2
  clear hc c
  simp only [LinearCodec.from_parameters, LinearCodec.get_parameters] at h2
  rw [h] at h2
  simp only [Except.map] at h2
  have hc2 : c2 = { n := n, k := k, G_matrix := none,
                    H_matrix := buildH (n - k) (generatePCols (n - k) k),
                    syndrome_table :=
                      buildSyndromeTable (buildH (n - k) (generatePCols (n - k) k)) n } :=
    (Except.ok.inj h2).symm
  rw [hc2]
  rfl

/--
Claim C10 (witness): the rebuilt `(7,4)` receiver instance rejects a
concrete encode call.
-/
theorem from_parameters_encode_raises_witness :
    codec74_rebuilt.encode [true, true, true, true] = .error .runtimeFault :=
  from_parameters_encode_raises 7 4 codec74 rfl codec74_rebuilt rfl
    [true, true, true, true]

/-! ## huffman.py lemmas -/

theorem counter_ne_nil (data : List Nat) (h : data ≠ []) : counter data ≠ [] := by
  have main : ∀ (ds : List Nat) (m : List (Nat × Nat)), m ≠ [] ∨ ds ≠ [] →
      ds.foldl (fun m d =>
        if m.any (fun kv => kv.1 == d) then
          m.map (fun kv => if kv.1 == d then (kv.1, kv.2 + 1) else kv)
        else m ++ [(d, 1)]) m ≠ [] := by
    intro ds
    induction ds with
    | nil =>
      intro m hm
      rcases hm with hm | hm
      · exact hm
      · exact absurd rfl hm
    | cons d rest ih =>
      intro m _
      rw [List.foldl_cons]
      apply ih
      left
      by_cases hany : m.any (fun kv => kv.1 == d) = true
      · rw [if_pos hany]
        intro hc
        rw [List.map_eq_nil_iff] at hc
        subst hc
        simp at hany
      · rw [if_neg hany]
        simp
  exact main data [] (Or.inr h)

theorem counter_keys (data : List Nat) (b : Nat) (hb : b ∈ data) :
    ∃ cnt, (b, cnt) ∈ counter data := by
  have main : ∀ (ds : List Nat) (m : List (Nat × Nat)),
      (∃ c, (b, c) ∈ m) ∨ b ∈ ds →
      ∃ c, (b, c) ∈ ds.foldl (fun m d =>
        if m.any (fun kv => kv.1 == d) then
          m.map (fun kv => if kv.1 == d then (kv.1, kv.2 + 1) else kv)
        else m ++ [(d, 1)]) m := by
    intro ds
    induction ds with
    | nil =>
      intro m hm
      rcases hm with hm | hm
      · exact hm
      · cases hm
    | cons d rest ih =>
      intro m hm
      rw [List.foldl_cons]
      apply ih
      have hpres : ∀ c, (b, c) ∈ m → ∃ c2, (b, c2) ∈
          (if m.any (fun kv => kv.1 == d) then
            m.map (fun kv => if kv.1 == d then (kv.1, kv.2 + 1) else kv)
          else m ++ [(d, 1)]) := by
        intro c hc
        by_cases hany : m.any (fun kv => kv.1 == d) = true
        · rw [if_pos hany]
          by_cases hbd : b = d
          · exact ⟨c + 1, List.mem_map.mpr ⟨(b, c), hc, by simp [hbd]⟩⟩
          · refine ⟨c, List.mem_map.mpr ⟨(b, c), hc, ?_⟩⟩
            simp [hbd]
        · rw [if_neg hany]
          exact ⟨c, List.mem_append.mpr (Or.inl hc)⟩
      rcases hm with ⟨c, hc⟩ | hm
      · exact Or.inl (hpres c hc)
      · rcases List.mem_cons.mp hm with rfl | hm
        · left
          by_cases hany : m.any (fun kv => kv.1 == b) = true
          · rw [if_pos hany]
            rw [List.any_eq_true] at hany
            rcases hany with ⟨kv, hkv, hkvb⟩
            have hkey : kv.1 = b := by simpa using hkvb
            exact ⟨kv.2 + 1, List.mem_map.mpr ⟨kv, hkv, by simp [hkey]⟩⟩
          · rw [if_neg hany]
            exact ⟨1, List.mem_append.mpr (Or.inr (by simp))⟩
        · exact Or.inr hm
  exact main data [] (Or.inr hb)

theorem popMin_length (q : List HTree) (a : HTree) (r : List HTree)
    (h : popMin q = some (a, r)) : q.length = r.length + 1 := by
  induction q generalizing a r with
  | nil => cases h
  | cons t ts ih =>
    cases ts with
    | nil =>
      simp only [popMin] at h
      injection h with hpair
      injection hpair with h1 h2
      subst h2
      rfl
    | cons u us =>
      cases hrec : popMin (u :: us) with
      | none =>
        have hu : popMin (t :: u :: us) = some (t, u :: us) := by
          simp [popMin, hrec]
        rw [hu] at h
        injection h with hpair
        injection hpair with h1 h2
        subst h2
        rfl
      | some mr =>
        obtain ⟨m, r0⟩ := mr
        by_cases hlt : m.freq < t.freq
        · have hu : popMin (t :: u :: us) = some (m, t :: r0) := by
            simp [popMin, hrec, hlt]
          rw [hu] at h
          injection h with hpair
          injection hpair with h1 h2
          subst h2
          have := ih m r0 hrec
          simp only [List.length_cons] at this ⊢
          omega
        · have hu : popMin (t :: u :: us) = some (t, u :: us) := by
            simp [popMin, hrec, hlt]
          rw [hu] at h
          injection h with hpair
          injection hpair with h1 h2
          subst h2
          rfl

theorem popMin_isSome (q : List HTree) (hne : q ≠ []) :
    ∃ a r, popMin q = some (a, r) := by
  cases q with
  | nil => exact absurd rfl hne
  | cons t ts =>
    cases ts with
    | nil => exact ⟨t, [], rfl⟩
    | cons u us =>
      cases hrec : popMin (u :: us) with
      | none => exact ⟨t, u :: us, by simp [popMin, hrec]⟩
      | some mr =>
        obtain ⟨m, r0⟩ := mr
        by_cases hlt : m.freq < t.freq
        · exact ⟨m, t :: r0, by simp [popMin, hrec, hlt]⟩
        · exact ⟨t, u :: us, by simp [popMin, hrec, hlt]⟩

theorem popMin_split (q : List HTree) (a : HTree) (r : List HTree)
    (h : popMin q = some (a, r)) : ∃ l1 l2, q = l1 ++ a :: l2 ∧ r = l1 ++ l2 := by
  induction q generalizing a r with
  | nil => cases h
  | cons t ts ih =>
    cases ts with
    | nil =>
      simp only [popMin] at h
      injection h with hpair
      injection hpair with h1 h2
      subst h1
      subst h2
      exact ⟨[], [], rfl, rfl⟩
    | cons u us =>
      cases hrec : popMin (u :: us) with
      | none =>
        have hu : popMin (t :: u :: us) = some (t, u :: us) := by
          simp [popMin, hrec]
        rw [hu] at h
        injection h with hpair
        injection hpair with h1 h2
        subst h1
        subst h2
        exact ⟨[], u :: us, rfl, rfl⟩
      | some mr =>
        obtain ⟨m, r0⟩ := mr
        by_cases hlt : m.freq < t.freq
        · have hu : popMin (t :: u :: us) = some (m, t :: r0) := by
            simp [popMin, hrec, hlt]
          rw [hu] at h
          injection h with hpair
          injection hpair with h1 h2
          subst h1
          subst h2
          obtain ⟨l1, l2, hq, hr⟩ := ih _ _ hrec
          refine ⟨t :: l1, l2, ?_, ?_⟩
          · rw [List.cons_append, ← hq]
          · rw [List.cons_append, ← hr]
        · have hu : popMin (t :: u :: us) = some (t, u :: us) := by
            simp [popMin, hrec, hlt]
          rw [hu] at h
          injection h with hpair
          injection hpair with h1 h2
          subst h1
          subst h2
          exact ⟨[], u :: us, rfl, rfl⟩

theorem popMin_mem_symbols (q : List HTree) (a : HTree) (r : List HTree)
    (h : popMin q = some (a, r)) (x : Nat) :
    x ∈ (q.map HTree.symbols).flatten ↔
      x ∈ a.symbols ∨ x ∈ (r.map HTree.symbols).flatten := by
  obtain ⟨l1, l2, hq, hr⟩ := popMin_split q a r h
  subst hq
  subst hr
  simp only [List.map_append, List.map_cons, List.flatten_append, List.flatten_cons,
    List.mem_append]
  tauto

theorem buildLoop_singleton (t : HTree) : buildLoop [t] = t := by
  rw [buildLoop]
  simp

theorem buildLoop_step (queue : List HTree) (h2 : 2 ≤ queue.length)
    (l : HTree) (q1 : List HTree) (hpop : popMin queue = some (l, q1))
    (r : HTree) (q2 : List HTree) (hpop2 : popMin q1 = some (r, q2)) :
    buildLoop queue = buildLoop (q2 ++ [.node none (l.freq + r.freq) l r]) := by
  rw [buildLoop]
  rw [if_neg (by omega)]
  split
  · rename_i heq
    rw [hpop] at heq
    cases heq
  · rename_i l' q1' heq
    rw [hpop] at heq
    injection heq with hpair
    injection hpair with h1 hq1
    subst h1
    subst hq1
    split
    · rename_i heq2
      rw [hpop2] at heq2
      cases heq2
    · rename_i r' q2' heq2
      rw [hpop2] at heq2
      injection heq2 with hpair2
      injection hpair2 with h3 hq2
      subst h3
      subst hq2
      rfl

theorem buildLoop_internal (q : List HTree) (h2 : 2 ≤ q.length) :
    ∃ f l r, buildLoop q = .node none f l r := by
  have H : ∀ (n : Nat) (q : List HTree), q.length ≤ n → 2 ≤ q.length →
      ∃ f l r, buildLoop q = .node none f l r := by
    intro n
    induction n with
    | zero => intro q hl hq2; omega
    | succ n ih =>
      intro q hl hq2
      obtain ⟨l, q1, hpop⟩ := popMin_isSome q (by
        intro hc
        rw [hc] at hq2
        simp at hq2)
      have hq1len : q.length = q1.length + 1 := popMin_length q l q1 hpop
      obtain ⟨r, q2, hpop2⟩ := popMin_isSome q1 (by
        intro hc
        rw [hc] at hq1len
        simp at hq1len
        omega)
      have hq2len : q1.length = q2.length + 1 := popMin_length q1 r q2 hpop2
      rw [buildLoop_step q hq2 l q1 hpop r q2 hpop2]
      by_cases hone : q2 = []
      · subst hone
        rw [List.nil_append, buildLoop_singleton]
        exact ⟨_, _, _, rfl⟩
      · have hq2pos : 0 < q2.length := List.length_pos.mpr hone
        apply ih
        · rw [List.length_append]
          simp only [List.length_cons, List.length_nil]
          omega
        · rw [List.length_append]
          simp only [List.length_cons, List.length_nil]
          omega
  exact H q.length q le_rfl h2

theorem buildLoop_symbols (q : List HTree) (h1 : q ≠ []) (x : Nat)
    (hx : x ∈ (q.map HTree.symbols).flatten) : x ∈ (buildLoop q).symbols := by
  have H : ∀ (n : Nat) (q : List HTree), q.length ≤ n → q ≠ [] →
      ∀ x, x ∈ (q.map HTree.symbols).flatten → x ∈ (buildLoop q).symbols := by
    intro n
    induction n with
    | zero =>
      intro q hl hq1
      have : q = [] := List.eq_nil_of_length_eq_zero (by omega)
      exact absurd this hq1
    | succ n ih =>
      intro q hl hq1 x hx
      rcases Nat.lt_or_ge q.length 2 with hlen | hlen
      · obtain ⟨t, hq⟩ : ∃ t, q = [t] := by
          cases q with
          | nil => exact absurd rfl hq1
          | cons t ts =>
            cases ts with
            | nil => exact ⟨t, rfl⟩
            | cons u us => simp only [List.length_cons] at hlen; omega
        subst hq
        rw [buildLoop_singleton]
        simpa using hx
      · obtain ⟨l, q1, hpop⟩ := popMin_isSome q hq1
        have hq1len : q.length = q1.length + 1 := popMin_length q l q1 hpop
        obtain ⟨r, q2, hpop2⟩ := popMin_isSome q1 (by
          intro hc
          rw [hc] at hq1len
          simp at hq1len
          omega)
        have hq2len : q1.length = q2.length + 1 := popMin_length q1 r q2 hpop2
        rw [buildLoop_step q hlen l q1 hpop r q2 hpop2]
        have hx2 : x ∈ ((q2 ++ [HTree.node none (l.freq + r.freq) l r]).map
            HTree.symbols).flatten := by
          have hmerge : (HTree.node none (l.freq + r.freq) l r).symbols =
              l.symbols ++ r.symbols := rfl
          rw [popMin_mem_symbols q l q1 hpop x] at hx
          rw [popMin_mem_symbols q1 r q2 hpop2 x] at hx
          rw [List.map_append, List.flatten_append, List.mem_append]
          simp only [List.map_cons, List.map_nil, List.flatten_cons, List.flatten_nil,
            List.append_nil, hmerge, List.mem_append]
          tauto
        apply ih
        · rw [List.length_append]
          simp only [List.length_cons, List.length_nil]
          omega
        · simp
        · exact hx2
  exact H q.length q le_rfl h1 x hx

theorem build_tree_internal (freq : List (Nat × Nat)) (h : freq ≠ []) :
    ∃ f l r, build_tree freq = .node none f l r := by
  simp only [build_tree, if_neg h]
  by_cases h1 : (freq.map (fun sf => HTree.node (some sf.1) sf.2 .nil .nil)).length = 1
  · rw [if_pos h1]
    obtain ⟨only_node, hq⟩ := List.length_eq_one.mp h1
    rw [hq]
    exact ⟨_, _, _, rfl⟩
  · rw [if_neg h1]
    apply buildLoop_internal
    rw [List.length_map]
    rw [List.length_map] at h1
    have := List.length_pos.mpr h
    omega

theorem build_tree_symbols (freq : List (Nat × Nat)) (h : freq ≠ []) (s cnt : Nat)
    (hmem : (s, cnt) ∈ freq) : s ∈ (build_tree freq).symbols := by
  simp only [build_tree, if_neg h]
  have hsx : s ∈ (((freq.map (fun sf => HTree.node (some sf.1) sf.2 .nil .nil)).map
      HTree.symbols)).flatten := by
    rw [List.mem_flatten]
    refine ⟨[s], ?_, by simp⟩
    rw [List.map_map]
    exact List.mem_map.mpr ⟨(s, cnt), hmem, rfl⟩
  by_cases h1 : (freq.map (fun sf => HTree.node (some sf.1) sf.2 .nil .nil)).length = 1
  · rw [if_pos h1]
    obtain ⟨only_node, hq⟩ := List.length_eq_one.mp h1
    rw [hq]
    rw [hq] at hsx
    simp only [List.map_cons, List.map_nil, List.flatten_cons, List.flatten_nil,
      List.append_nil] at hsx
    show s ∈ only_node.symbols ++ HTree.nil.symbols
    simp only [HTree.symbols, List.append_nil]
    exact hsx
  · rw [if_neg h1]
    apply buildLoop_symbols _ _ s hsx
    intro hc
    exact h (List.map_eq_nil_iff.mp hc)

theorem lookupCode_mem (b : Nat) (cm : List (Nat × List Bool)) (cw : List Bool)
    (h : lookupCode b cm = some cw) : (b, cw) ∈ cm := by
  induction cm with
  | nil => cases h
  | cons kv rest ih =>
    rw [lookupCode] at h
    by_cases hb : b = kv.1
    · rw [if_pos hb] at h
      injection h with h2
      subst hb
      subst h2
      exact List.mem_cons_self _ _
    · rw [if_neg hb] at h
      exact List.mem_cons_of_mem _ (ih h)

theorem lookupCode_append_isSome (b : Nat) (l1 l2 : List (Nat × List Bool)) :
    (lookupCode b (l1 ++ l2)).isSome =
      ((lookupCode b l1).isSome || (lookupCode b l2).isSome) := by
  induction l1 with
  | nil => simp [lookupCode]
  | cons kv rest ih =>
    rw [List.cons_append, lookupCode, lookupCode]
    by_cases hb : b = kv.1
    · rw [if_pos hb, if_pos hb]
      simp
    · rw [if_neg hb, if_neg hb]
      exact ih

theorem lookupCode_map_isSome (cm : List (Nat × List Bool)) (s : Nat) (v : List Bool)
    (b : Nat)
    (h : (lookupCode b cm).isSome = true ∨
      (b = s ∧ cm.any (fun kv => kv.1 == s) = true)) :
    (lookupCode b (cm.map (fun kv => if kv.1 == s then (s, v) else kv))).isSome := by
  induction cm with
  | nil =>
    rcases h with h | ⟨_, h⟩
    · simp [lookupCode] at h
    · simp at h
  | cons kv rest ih =>
    simp only [List.map_cons]
    by_cases hks : (kv.1 == s) = true
    · rw [if_pos hks]
      by_cases hbs : b = s
      · rw [lookupCode, if_pos hbs]
        rfl
      · rw [lookupCode, if_neg hbs]
        apply ih
        left
        rcases h with h | ⟨hbs2, _⟩
        · rw [lookupCode] at h
          have hkey : kv.1 = s := by simpa using hks
          rw [if_neg (by rw [hkey]; exact hbs)] at h
          exact h
        · exact absurd hbs2 hbs
    · rw [if_neg hks]
      rw [lookupCode]
      by_cases hbk : b = kv.1
      · rw [if_pos hbk]
        rfl
      · rw [if_neg hbk]
        apply ih
        rcases h with h | ⟨hbs, hany⟩
        · left
          rw [lookupCode, if_neg hbk] at h
          exact h
        · right
          refine ⟨hbs, ?_⟩
          rw [List.any_cons] at hany
          simpa [hks] using hany

theorem lookupCode_dictInsert_isSome (cm : List (Nat × List Bool)) (s : Nat)
    (v : List Bool) (b : Nat) (h : b = s ∨ (lookupCode b cm).isSome = true) :
    (lookupCode b (dictInsert cm s v)).isSome := by
  rw [dictInsert]
  by_cases hany : cm.any (fun kv => kv.1 == s) = true
  · rw [if_pos hany]
    apply lookupCode_map_isSome
    rcases h with rfl | h
    · exact Or.inr ⟨rfl, hany⟩
    · exact Or.inl h
  · rw [if_neg hany]
    rw [lookupCode_append_isSome]
    rcases h with rfl | h
    · have : (lookupCode b [(b, v)]).isSome = true := by
        rw [lookupCode, if_pos rfl]
        rfl
      rw [this]
      simp
    · rw [h]
      rfl

theorem dictInsert_mem (cm : List (Nat × List Bool)) (s : Nat) (v : List Bool)
    (a : Nat) (bv : List Bool) (h : (a, bv) ∈ dictInsert cm s v) :
    (a, bv) ∈ cm ∨ (a = s ∧ bv = v) := by
  rw [dictInsert] at h
  by_cases hany : cm.any (fun kv => kv.1 == s) = true
  · rw [if_pos hany] at h
    rcases List.mem_map.mp h with ⟨kv, hkv, heq⟩
    by_cases hks : (kv.1 == s) = true
    · rw [if_pos hks] at heq
      right
      injection heq.symm with h1 h2
      exact ⟨h1, h2⟩
    · rw [if_neg hks] at heq
      left
      rw [← heq]
      exact hkv
  · rw [if_neg hany] at h
    rcases List.mem_append.mp h with h | h
    · exact Or.inl h
    · right
      rcases List.mem_singleton.mp h with heq
      injection heq with h1 h2
      exact ⟨h1, h2⟩

theorem descends_nil_leaf (t : HTree) (s : Nat) (h : Descends t [] s) :
    ∃ f l r, t = .node (some s) f l r := by
  cases h
  exact ⟨_, _, _, rfl⟩

theorem descends_cons_internal (t : HTree) (b : Bool) (p : List Bool) (s : Nat)
    (h : Descends t (b :: p) s) : ∃ f l r, t = .node none f l r := by
  cases h <;> exact ⟨_, _, _, rfl⟩

/-- Every code written by `_generate_codes` is the nonempty prefix path
to its leaf (relative to the prefix it was called with). -/
theorem generate_codes_mem (t : HTree) : ∀ (pre : List Bool) (cm : List (Nat × List Bool))
    (s : Nat) (cw : List Bool), (s, cw) ∈ generate_codes t pre cm →
    (s, cw) ∈ cm ∨ ∃ path, cw = (if pre ++ path = [] then [false] else pre ++ path) ∧
      Descends t path s := by
  induction t with
  | nil =>
    intro pre cm s cw h
    exact Or.inl h
  | node sym f l r ihl ihr =>
    intro pre cm s cw h
    cases sym with
    | some s0 =>
      simp only [generate_codes] at h
      rcases dictInsert_mem cm s0 _ s cw h with h | ⟨h1, h2⟩
      · exact Or.inl h
      · right
        refine ⟨[], ?_, ?_⟩
        · rw [List.append_nil]
          exact h2
        · subst h1
          exact Descends.here
    | none =>
      simp only [generate_codes] at h
      rcases ihr (pre ++ [true]) _ s cw h with h2 | ⟨path, hcw, hd⟩
      · rcases ihl (pre ++ [false]) cm s cw h2 with h3 | ⟨path, hcw, hd⟩
        · exact Or.inl h3
        · right
          refine ⟨false :: path, ?_, Descends.stepL hd⟩
          rw [hcw, if_neg (by simp), if_neg (by simp), List.append_assoc]
          rfl
      · right
        refine ⟨true :: path, ?_, Descends.stepR hd⟩
        rw [hcw, if_neg (by simp), if_neg (by simp), List.append_assoc]
        rfl

/-- Every symbol of the tree receives a code. -/
theorem generate_codes_lookup_isSome (t : HTree) : ∀ (pre : List Bool)
    (cm : List (Nat × List Bool)) (s : Nat),
    (s ∈ t.symbols ∨ (lookupCode s cm).isSome = true) →
    (lookupCode s (generate_codes t pre cm)).isSome = true := by
  induction t with
  | nil =>
    intro pre cm s h
    simp only [generate_codes]
    rcases h with h | h
    · simp [HTree.symbols] at h
    · exact h
  | node sym f l r ihl ihr =>
    intro pre cm s h
    cases sym with
    | some s0 =>
      simp only [generate_codes]
      apply lookupCode_dictInsert_isSome
      rcases h with h | h
      · left
        simpa [HTree.symbols] using h
      · exact Or.inr h
    | none =>
      simp only [generate_codes]
      apply ihr
      rcases h with h | h
      · simp only [HTree.symbols, List.mem_append] at h
        rcases h with h | h
        · exact Or.inr (ihl _ cm s (Or.inl h))
        · exact Or.inl h
      · exact Or.inr (ihl _ cm s (Or.inr h))

/-- The decode walk consumes a leaf path, emits the leaf's symbol, and
resets to the root. -/
theorem walkDecode_descends (root : HTree) : ∀ (t : HTree) (path : List Bool) (s : Nat),
    Descends t path s → path ≠ [] → ∀ rest : List Bool,
      walkDecode root (path ++ rest) t =
        (walkDecode root rest root).map (fun ds => s :: ds) := by
  intro t path s hd
  induction hd with
  | here =>
    intro hne _
    exact absurd rfl hne
  | @stepL f l r path' s' hsub ih =>
    intro _ rest
    rw [List.cons_append]
    cases path' with
    | nil =>
      obtain ⟨f2, l2, r2, rfl⟩ := descends_nil_leaf l s' hsub
      rfl
    | cons b' p' =>
      obtain ⟨f2, l2, r2, rfl⟩ := descends_cons_internal l b' p' s' hsub
      exact ih (by simp) rest
  | @stepR f l r path' s' hsub ih =>
    intro _ rest
    rw [List.cons_append]
    cases path' with
    | nil =>
      obtain ⟨f2, l2, r2, rfl⟩ := descends_nil_leaf r s' hsub
      rfl
    | cons b' p' =>
      obtain ⟨f2, l2, r2, rfl⟩ := descends_cons_internal r b' p' s' hsub
      exact ih (by simp) rest

/-- Encoding a byte list against a code map of valid leaf paths yields a
bit string the decode walk inverts. -/
theorem encode_walk (root : HTree) (cm : List (Nat × List Bool))
    (hcodes : ∀ b cw, lookupCode b cm = some cw → cw ≠ [] ∧ Descends root cw b) :
    ∀ ds : List Nat, (∀ b ∈ ds, (lookupCode b cm).isSome = true) →
      ∃ bits, encodeData cm ds = .ok bits ∧
        walkDecode root bits root = .ok ds ∧ (ds ≠ [] → bits ≠ []) := by
  intro ds
  induction ds with
  | nil =>
    intro _
    exact ⟨[], rfl, rfl, fun hc => absurd rfl hc⟩
  | cons b rest ih =>
    intro hall
    have hb := hall b (List.mem_cons_self b rest)
    obtain ⟨cw, hcw⟩ := Option.isSome_iff_exists.mp hb
    obtain ⟨hcwne, hdesc⟩ := hcodes b cw hcw
    obtain ⟨bits, hev, hwalk, _⟩ := ih (fun y hy => hall y (List.mem_cons_of_mem _ hy))
    refine ⟨cw ++ bits, ?_, ?_, ?_⟩
    · rw [encodeData, hcw]
      show (encodeData cm rest).map (fun bs => cw ++ bs) = .ok (cw ++ bits)
      rw [hev]
      rfl
    · rw [walkDecode_descends root root cw b hdesc hcwne bits, hwalk]
      rfl
    · intro _ hc
      exact hcwne (List.append_eq_nil.mp hc).1

/--
Claim C2: for every non-empty byte buffer, compressing with a fresh
`HuffmanCodec` succeeds, the produced bit string is non-empty (so even a
single-symbol alphabet's lone codeword has length ≥ 1), and
decompressing the bit string with the returned frequency table restores
the buffer exactly.
-/
theorem huffman_roundtrip (data : List Nat) (hne : data ≠ []) :
    ∃ bits freq, compress data = .ok (bits, freq) ∧ bits ≠ [] ∧
      decompress bits freq = .ok data := by
  have hfreqne : counter data ≠ [] := counter_ne_nil data hne
  obtain ⟨f0, l0, r0, hroot⟩ := build_tree_internal (counter data) hfreqne
  set root := build_tree (counter data) with hrootdef
  set cm := generate_codes root [] [] with hcmdef
  have hcodes : ∀ b cw, lookupCode b cm = some cw → cw ≠ [] ∧ Descends root cw b := by
    intro b cw hl
    have hmem : (b, cw) ∈ cm := lookupCode_mem b cm cw hl
    rw [hcmdef] at hmem
    rcases generate_codes_mem root [] [] b cw hmem with h | ⟨path, hcw, hd⟩
    · cases h
    · cases path with
      | nil =>
        rw [hroot] at hd
        cases hd
      | cons b0 p0 =>
        rw [List.nil_append, if_neg (by simp)] at hcw
        subst hcw
        exact ⟨by simp, hd⟩
  have hlookups : ∀ b ∈ data, (lookupCode b cm).isSome = true := by
    intro b hb
    obtain ⟨cnt, hmemfreq⟩ := counter_keys data b hb
    have hsym : b ∈ root.symbols :=
      build_tree_symbols (counter data) hfreqne b cnt hmemfreq
    exact generate_codes_lookup_isSome root [] [] b (Or.inl hsym)
  obtain ⟨bits, hev, hwalk, hbne⟩ := encode_walk root cm hcodes data hlookups
  refine ⟨bits, counter data, ?_, hbne hne, ?_⟩
  · simp only [compress]
    rw [if_neg hne, ← hrootdef, ← hcmdef, hev]
    rfl
  · simp only [decompress]
    rw [if_neg hfreqne, ← hrootdef]
    exact hwalk

/--
Claim C2 (witness): the single-symbol buffer `AAAA`.
-/
theorem huffman_roundtrip_witness :
    ∃ bits freq, compress [65, 65, 65, 65] = .ok (bits, freq) ∧ bits ≠ [] ∧
      decompress bits freq = .ok [65, 65, 65, 65] :=
  huffman_roundtrip [65, 65, 65, 65] (by decide)

/--
Claim C5 (code bug evaluation): the claim — decompress never raises and
drops an unterminated partial symbol silently — is broken by the
single-symbol wrapper tree, whose right child is `None`: on the
frequency table `{65: 4}` and bit string `"1"`, the walk steps into the
missing right child and dereferences `None` (`AttributeError`), instead
of returning the symbols decoded so far (`b""`).
-/
theorem decompress_crashes_on_single_symbol_table :
    decompress [true] [(65, 4)] = .error .attributeFault := rfl

end Codes
